import Mathlib

/-!
Verification of the dependence-graph library (DepGraph.h) of this repository.

The header file declares the node hierarchy (GraphNode, OpNode, CallNode,
VarNode, MemNode), the Graph container with its statistics counters, and the
traversal queries.  The node constructors, destructors, `classof` class tests
and the `Graph` constructor are given inline in the header and are embedded
here directly.  The bodies of `connect`, `addInst` and the four traversal
queries (`getDepValues`, `generateSubGraph`, `getNearestDependency`,
`getEveryDependency`) are not part of the repository sources; those are
modelled from the specification, as flagged in the individual doc comments.

Machine values (LLVM `Value*`) are represented by natural-number identifiers;
graph nodes are likewise identified by their unique integer ID (the source
assigns every node a unique increasing ID).  Alias-set IDs are integers, as in
the source.
-/

namespace DepGraph

/-- Edge type enumeration from DepGraph.h: `etData = 0, etControl = 1`. -/
inductive edgeType : Type
  | etData : edgeType
  | etControl : edgeType
deriving DecidableEq, Repr

/-- A graph node as observable data: its `Class_ID` discriminant (1 = OpNode,
2 = VarNode, 3 = CallNode, 4 = MemNode) and its unique node ID. -/
structure NodeRec where
  classId : Int
  nodeId : Nat
deriving DecidableEq, Repr

/-- The four global STATISTIC counters of DepGraph.h: `NrOpNodes`,
`NrVarNodes`, `NrMemNodes`, `NrEdges`. -/
structure Stats where
  nrOpNodes : Int
  nrVarNodes : Int
  nrMemNodes : Int
  nrEdges : Int
deriving DecidableEq, Repr

/-- OpNode constructor (inline in the header): sets `Class_ID = 1` and
increments `NrOpNodes`. -/
def OpNode.mkNode (nid : Nat) (st : Stats) : NodeRec × Stats :=
  ({ classId := 1, nodeId := nid }, { st with nrOpNodes := st.nrOpNodes + 1 })

/-- CallNode constructor (inline in the header): runs the OpNode constructor
(`OpNode(Instruction::Call, CI)`), which sets `Class_ID = 1` and increments
`NrOpNodes`, then overwrites `Class_ID = 3`. -/
def CallNode.mkNode (nid : Nat) (st : Stats) : NodeRec × Stats :=
  let p := OpNode.mkNode nid st
  ({ p.fst with classId := 3 }, p.snd)

/-- VarNode constructor (inline in the header): `Class_ID = 2`, `NrVarNodes++`. -/
def VarNode.mkNode (nid : Nat) (st : Stats) : NodeRec × Stats :=
  ({ classId := 2, nodeId := nid }, { st with nrVarNodes := st.nrVarNodes + 1 })

/-- MemNode constructor (inline in the header): `Class_ID = 4`, `NrMemNodes++`. -/
def MemNode.mkNode (nid : Nat) (st : Stats) : NodeRec × Stats :=
  ({ classId := 4, nodeId := nid }, { st with nrMemNodes := st.nrMemNodes + 1 })

/-- OpNode::classof (inline in the header): accepts `Class_ID` 1 or 3. -/
def OpNode.classof (n : NodeRec) : Bool :=
  n.classId == 1 || n.classId == 3

/-- CallNode::classof (inline in the header): accepts `Class_ID` 3. -/
def CallNode.classof (n : NodeRec) : Bool :=
  n.classId == 3

/-- VarNode::classof (inline in the header): accepts `Class_ID` 2. -/
def VarNode.classof (n : NodeRec) : Bool :=
  n.classId == 2

/-- MemNode::classof (inline in the header): accepts `Class_ID` 4. -/
def MemNode.classof (n : NodeRec) : Bool :=
  n.classId == 4

/-- Successor or predecessor map entries, flattened: an entry `(a, b, t)` in a
successor list means node `b` is in node `a`'s successor map with edge type
`t`; an entry `(b, a, t)` in a predecessor list means node `a` is in node
`b`'s predecessor map with type `t`.  The source stores
`std::map<GraphNode*, edgeType>` per node, so a given `(owner, neighbour)`
pair carries at most one type; the reachable-state invariant below reflects
that. -/
abbrev EdgeList := List (Nat × Nat × edgeType)

/-- Global mutable state of the node/edge layer: the two adjacency maps of
all nodes, the set of live nodes, the STATISTIC counters and the next fresh
node ID (`GraphNode::currentID`). -/
structure SysState where
  succ : EdgeList
  pred : EdgeList
  liveNodes : List NodeRec
  stats : Stats
  nextId : Nat
deriving DecidableEq, Repr

/-- Initial state: no nodes, no edges, all counters zero. -/
def initState : SysState :=
  { succ := [], pred := [], liveNodes := [], stats := ⟨0, 0, 0, 0⟩, nextId := 0 }

/-- Overwrite the map entry of `owner` for key `nb` with type `t` (std::map
operator[] assignment semantics: at most one entry per key). -/
def setEntry (l : EdgeList) (owner nb : Nat) (t : edgeType) : EdgeList :=
  (owner, nb, t) :: l.filter (fun e => !(e.1 == owner && e.2.1 == nb))

/-- Modelled from the spec: the body of `GraphNode::connect` is not in the
repository sources (only its declaration, line 91 of DepGraph.h).  Per the
spec it establishes the directed edge in both endpoint maps with the same
type, is idempotent per `(src, dst, type)` triple, and increments the global
edge counter exactly once per newly created triple. -/
def connectStep (s : SysState) (a b : Nat) (t : edgeType) : SysState :=
  if (a, b, t) ∈ s.succ then s
  else
    { s with
      succ := setEntry s.succ a b t
      pred := setEntry s.pred b a t
      stats := { s.stats with nrEdges := s.stats.nrEdges + 1 } }

/-- Construction and mutation operations on the node/edge layer. -/
inductive GOp : Type
  | newGraph : GOp
  | newOp : GOp
  | newCall : GOp
  | newVar : GOp
  | newMem : GOp
  | delNode (nid : Nat) : GOp
  | connect (a b : Nat) (t : edgeType) : GOp
deriving DecidableEq, Repr

/-- Number of map entries touching node `nid` (edges severed when `nid` is
deleted). -/
def severCount (l : EdgeList) (nid : Nat) : Nat :=
  (l.filter (fun e => e.1 == nid || e.2.1 == nid)).length

/-- Remove every map entry touching node `nid`. -/
def removeNodeEdges (l : EdgeList) (nid : Nat) : EdgeList :=
  l.filter (fun e => !(e.1 == nid || e.2.1 == nid))

/-- Counter decrement performed by the node destructors (inline in the
header): `~OpNode` decrements `NrOpNodes` (a CallNode is destroyed through
`~OpNode` as well, having no destructor of its own), `~VarNode` decrements
`NrVarNodes`, `~MemNode` decrements `NrMemNodes`. -/
def dtorStats (st : Stats) (classId : Int) : Stats :=
  if classId == 1 || classId == 3 then { st with nrOpNodes := st.nrOpNodes - 1 }
  else if classId == 2 then { st with nrVarNodes := st.nrVarNodes - 1 }
  else if classId == 4 then { st with nrMemNodes := st.nrMemNodes - 1 }
  else st

/-- One construction/mutation step.  `newGraph` is the `Graph` constructor,
inline in the header (lines 276-280): it resets the global `NrEdges` counter
to zero.  The node-creation steps run the corresponding inline node
constructors.  `delNode` deletes a live node: the destructor decrement is
inline in the header; the severing of the deleted node's edges from every
neighbour map together with the matching edge-counter decrement is modelled
from the spec (node deletion disconnects the node from all neighbours,
decrementing counters).  `connect` is modelled from the spec, see
`connectStep`. -/
def GOp.step (s : SysState) : GOp → SysState
  | .newGraph => { s with stats := { s.stats with nrEdges := 0 } }
  | .newOp =>
      let p := OpNode.mkNode s.nextId s.stats
      { s with liveNodes := p.fst :: s.liveNodes, stats := p.snd, nextId := s.nextId + 1 }
  | .newCall =>
      let p := CallNode.mkNode s.nextId s.stats
      { s with liveNodes := p.fst :: s.liveNodes, stats := p.snd, nextId := s.nextId + 1 }
  | .newVar =>
      let p := VarNode.mkNode s.nextId s.stats
      { s with liveNodes := p.fst :: s.liveNodes, stats := p.snd, nextId := s.nextId + 1 }
  | .newMem =>
      let p := MemNode.mkNode s.nextId s.stats
      { s with liveNodes := p.fst :: s.liveNodes, stats := p.snd, nextId := s.nextId + 1 }
  | .delNode nid =>
      match s.liveNodes.find? (fun n => n.nodeId == nid) with
      | none => s
      | some n =>
          { s with
            liveNodes := s.liveNodes.filter (fun m => !(m.nodeId == nid))
            succ := removeNodeEdges s.succ nid
            pred := removeNodeEdges s.pred nid
            stats :=
              let st := dtorStats s.stats n.classId
              { st with nrEdges := st.nrEdges - (severCount s.succ nid : Int) } }
  | .connect a b t => connectStep s a b t

/-- Run a sequence of operations from the initial state. -/
def runOps (ops : List GOp) : SysState :=
  ops.foldl GOp.step initState

/-- Number of live nodes accepted by a given classof test. -/
def liveCount (s : SysState) (cls : NodeRec → Bool) : Nat :=
  (s.liveNodes.filter cls).length

/-- Number of live edges: entries of the (symmetric) successor maps. -/
def liveEdgeCount (s : SysState) : Nat :=
  s.succ.length

/-- The per-node-type population counters agree with the live node set. -/
def nodeCountersConsistent (s : SysState) : Prop :=
  s.stats.nrOpNodes = (liveCount s OpNode.classof : Int) ∧
  s.stats.nrVarNodes = (liveCount s VarNode.classof : Int) ∧
  s.stats.nrMemNodes = (liveCount s MemNode.classof : Int)

/-- All counters, including the global edge counter, agree with the live
node and edge sets. -/
def countersConsistent (s : SysState) : Prop :=
  nodeCountersConsistent s ∧ s.stats.nrEdges = (liveEdgeCount s : Int)

instance (s : SysState) : Decidable (nodeCountersConsistent s) := by
  unfold nodeCountersConsistent; infer_instance

instance (s : SysState) : Decidable (countersConsistent s) := by
  unfold countersConsistent; infer_instance

/-- Does the operation create or delete edges (touching the edge counter)? -/
def GOp.touchesEdges : GOp → Bool
  | .connect _ _ _ => true
  | .delNode _ => true
  | _ => false

/-- True when every `newGraph` operation in the list happens before any
edge-touching operation (so the constructor reset of `NrEdges` can never
discard a nonzero count). -/
def graphsFirst : Bool → List GOp → Bool
  | _, [] => true
  | seen, op :: rest =>
    match op with
    | .newGraph => !seen && graphsFirst seen rest
    | o => graphsFirst (seen || o.touchesEdges) rest

/-- The two adjacency maps are symmetric: `b` is in `a`'s successor map with
type `t` exactly when `a` is in `b`'s predecessor map with type `t`. -/
def EdgesSymm (s : SysState) : Prop :=
  ∀ a b t, (a, b, t) ∈ s.succ ↔ (b, a, t) ∈ s.pred

/-- Map-key discipline of `std::map<GraphNode*, edgeType>`: each
`(owner, neighbour)` pair occurs at most once in the successor entries. -/
def succKeysNodup (s : SysState) : Prop :=
  (s.succ.map (fun e => (e.1, e.2.1))).Nodup

/-- Two operations never connect the same ordered node pair with two
different edge types. -/
def sameConnectSameType (x y : GOp) : Bool :=
  match x, y with
  | .connect a b t, .connect c d u => !(a == c && b == d) || t == u
  | _, _ => true

/-- No ordered node pair is connected with two different edge types anywhere
in the trace. -/
def uniformConnects (ops : List GOp) : Bool :=
  ops.all (fun x => ops.all (fun y => sameConnectSameType x y))

/-- Value-to-node indices of the Graph class (DepGraph.h lines 255-259):
`opNodes`, `callNodes`, `varNodes` keyed by value identity and `memNodes`
keyed by alias-set ID.  Values are represented by natural numbers,
alias-set IDs by integers, nodes by their unique IDs. -/
structure BGraph where
  opNodes : List (Nat × Nat)
  callNodes : List (Nat × Nat)
  varNodes : List (Nat × Nat)
  memNodes : List (Int × Nat)
  nextId : Nat
deriving DecidableEq, Repr

/-- A freshly constructed Graph: all indices empty. -/
def emptyB : BGraph :=
  { opNodes := [], callNodes := [], varNodes := [], memNodes := [], nextId := 0 }

/-- Lookup in a value-keyed index (DenseMap semantics: at most one entry
per key; the construction below never inserts a duplicate key). -/
def lookupV (l : List (Nat × Nat)) (k : Nat) : Option Nat :=
  (l.find? (fun e => e.1 == k)).map (fun e => e.2)

/-- Lookup in the alias-set-ID-keyed Memory-node index. -/
def lookupM (l : List (Int × Nat)) (k : Int) : Option Nat :=
  (l.find? (fun e => e.1 == k)).map (fun e => e.2)

/-- Modelled from the spec: the body of `Graph::addInst` is not in the
repository sources (only its declaration, line 288 of DepGraph.h).  Per
the spec's classification policy: instructions not valid for the graph are
skipped; a value for which the alias oracle reports an alias-set ID is
routed to (or creates) the single Memory node of that alias-set ID;
otherwise call instructions get a Call node and all other values an
Operation node, created lazily on first reference.  The alias oracle and
the classification predicates are abstract parameters. -/
def Graph.addInst (oracle : Nat → Option Int) (isCall : Nat → Bool)
    (valid : Nat → Bool) (g : BGraph) (v : Nat) : Option Nat × BGraph :=
  if valid v = false then (none, g)
  else
    match oracle v with
    | some asid =>
        match lookupM g.memNodes asid with
        | some n => (some n, g)
        | none =>
            (some g.nextId,
              { g with
                memNodes := (asid, g.nextId) :: g.memNodes
                nextId := g.nextId + 1 })
    | none =>
        if isCall v then
          match lookupV g.callNodes v with
          | some n => (some n, g)
          | none =>
              (some g.nextId,
                { g with
                  callNodes := (v, g.nextId) :: g.callNodes
                  nextId := g.nextId + 1 })
        else
          match lookupV g.opNodes v with
          | some n => (some n, g)
          | none =>
              (some g.nextId,
                { g with
                  opNodes := (v, g.nextId) :: g.opNodes
                  nextId := g.nextId + 1 })

/-- Graph construction over a sequence of instruction values. -/
def Graph.buildRun (oracle : Nat → Option Int) (isCall : Nat → Bool)
    (valid : Nat → Bool) (g : BGraph) (vs : List Nat) : BGraph :=
  vs.foldl (fun g v => (Graph.addInst oracle isCall valid g v).snd) g

/-- Query-level view of a constructed dependence graph: the owned node set
(`Graph::nodes`, as node IDs), the successor and predecessor adjacency of
each node (edge types do not matter to the traversal queries), and the
Memory-node test (`MemNode::classof`). -/
structure QGraph where
  nodes : List Nat
  succOf : Nat → List Nat
  predOf : Nat → List Nat
  isMem : Nat → Bool

/-- Well-formedness of a query graph: the node list has no duplicates, the
adjacency stays inside the node set, and the successor/predecessor maps are
symmetric (the invariant of C5). -/
def QGraph.WF (g : QGraph) : Prop :=
  g.nodes.Nodup ∧
  (∀ u ∈ g.nodes, ∀ v ∈ g.succOf u, v ∈ g.nodes) ∧
  (∀ u ∈ g.nodes, ∀ v ∈ g.predOf u, v ∈ g.nodes) ∧
  (∀ u ∈ g.nodes, ∀ v ∈ g.nodes, (v ∈ g.succOf u ↔ u ∈ g.predOf v))

/-- Direction selection of `getDepValues`: successor edges when forward,
predecessor edges when backward. -/
def nbrF (g : QGraph) (forward : Bool) : Nat → List Nat :=
  if forward then g.succOf else g.predOf

/-- Reachability by repeatedly following the neighbour function. -/
def Reaches (nbr : Nat → List Nat) (s v : Nat) : Prop :=
  Relation.ReflTransGen (fun a b => b ∈ nbr a) s v

/-- Modelled from the spec: the bodies of the traversals (`getDepValues`,
`dfsVisit`, `dfsVisitBack`) are not in the repository sources.  Worklist
depth-first traversal with an explicit visited set: a node already visited
is never re-expanded; an expanded node pushes its neighbours onto the
stack.  Returns the visited set (in reverse discovery order). -/
def dfsAux (g : QGraph) (nbr : Nat → List Nat) :
    List Nat → List Nat → List Nat
  | [], visited => visited
  | u :: stack, visited =>
    if u ∈ visited then dfsAux g nbr stack visited
    else if u ∈ g.nodes then dfsAux g nbr (nbr u ++ stack) (u :: visited)
    else dfsAux g nbr stack visited
termination_by stack visited =>
  ((g.nodes.toFinset \ visited.toFinset).card, stack.length)
decreasing_by
  · apply Prod.Lex.right
    exact Nat.lt_succ_self _
  · apply Prod.Lex.left
    apply Finset.card_lt_card
    rw [Finset.ssubset_iff_of_subset]
    · refine ⟨u, ?_, ?_⟩
      · rw [Finset.mem_sdiff]
        refine ⟨List.mem_toFinset.mpr (by assumption), ?_⟩
        rw [List.mem_toFinset]
        assumption
      · rw [Finset.mem_sdiff, List.toFinset_cons]
        rintro ⟨_, hnot⟩
        exact hnot (Finset.mem_insert_self u _)
    · intro x hx
      rw [Finset.mem_sdiff] at hx ⊢
      rw [List.toFinset_cons] at hx
      exact ⟨hx.1, fun hc => hx.2 (Finset.mem_insert_of_mem hc)⟩
  · apply Prod.Lex.right
    exact Nat.lt_succ_self _

/-- Modelled from the spec: `Graph::getDepValues` (declared at lines
283-284 of DepGraph.h).  Looks up the node of every source value (sources
without a node are skipped silently), then runs a depth-first traversal
from those nodes following successor edges (forward) or predecessor edges
(backward), returning the set of reached nodes, sources included. -/
def Graph.getDepValues (g : QGraph) (find : Nat → Option Nat)
    (sources : List Nat) (forward : Bool) : List Nat :=
  dfsAux g (nbrF g forward) (sources.filterMap find) []

/-- Modelled from the spec: `Graph::dfsVisit` — forward depth-first visit
used by the connecting-subgraph computation. -/
def Graph.dfsVisit (g : QGraph) (sN : Nat) : List Nat :=
  dfsAux g g.succOf [sN] []

/-- Modelled from the spec: `Graph::dfsVisitBack` — backward depth-first
visit used by the connecting-subgraph computation. -/
def Graph.dfsVisitBack (g : QGraph) (dN : Nat) : List Nat :=
  dfsAux g g.predOf [dN] []

/-- Modelled from the spec: `Graph::generateSubGraph` (declared at line 318
of DepGraph.h).  Node set of the connecting subgraph from src to dst: the
intersection of the forward-reachable set of src's node and the
backward-reachable set of dst's node, computed by the two depth-first
visits.  Values without nodes yield the empty subgraph. -/
def Graph.generateSubGraph (g : QGraph) (find : Nat → Option Nat)
    (src dst : Nat) : List Nat :=
  match find src, find dst with
  | some sN, some dN =>
      (Graph.dfsVisit g sN).filter (fun v => (Graph.dfsVisitBack g dN).contains v)
  | _, _ => []

/-- Consecutive-edge predicate for an ordered node sequence: each node is
followed by one of its neighbours. -/
def IsPathOver (nbr : Nat → List Nat) : List Nat → Prop
  | [] => False
  | [_] => True
  | a :: b :: rest => b ∈ nbr a ∧ IsPathOver nbr (b :: rest)

/-- Reversed-path predicate: each node is a neighbour of the node after it
(discovery paths of the backward breadth-first search are stored with the
most recently discovered node first). -/
def IsRevPathOver (nbr : Nat → List Nat) : List Nat → Prop
  | [] => False
  | [_] => True
  | a :: b :: rest => a ∈ nbr b ∧ IsRevPathOver nbr (b :: rest)

/-- Reachability in exactly `k` neighbour steps. -/
inductive ReachN (nbr : Nat → List Nat) (s : Nat) : Nat → Nat → Prop
  | refl : ReachN nbr s 0 s
  | tail {n u v} : ReachN nbr s n u → v ∈ nbr u → ReachN nbr s (n + 1) v

/-- The breadth-first distance from `s` to `v` is exactly `k`: reachable in
`k` steps and in no fewer. -/
def distIs (nbr : Nat → List Nat) (s v : Nat) (k : Nat) : Prop :=
  ReachN nbr s k v ∧ ∀ j, j < k → ¬ ReachN nbr s j v

/-- Node of a breadth-first queue entry (the head of its discovery path). -/
def entryNode (p : List Nat) : Nat :=
  p.headI

/-- One breadth-first expansion: every frontier entry emits one extended
discovery path per neighbour of its node. -/
def expandLevel (nbr : Nat → List Nat) (frontier : List (List Nat)) :
    List (List Nat) :=
  frontier.flatMap (fun p => (nbr (entryNode p)).map (fun w => w :: p))

/-- Visited-set filtering of a freshly expanded level: entries whose node
was already visited, or already discovered earlier in the same level, are
dropped (first discovery wins). -/
def pruneLevel (vis : List Nat) : List (List Nat) → List (List Nat)
  | [] => []
  | p :: rest =>
      if entryNode p ∈ vis then pruneLevel vis rest
      else p :: pruneLevel (entryNode p :: vis) rest

/-- State of the level-synchronous breadth-first search: the entries of the
current level and all entries discovered so far, in discovery order. -/
structure BfsSt where
  frontier : List (List Nat)
  visited : List (List Nat)

/-- One breadth-first level step. -/
def bfsStep (nbr : Nat → List Nat) (st : BfsSt) : BfsSt :=
  let nf := pruneLevel (st.visited.map entryNode) (expandLevel nbr st.frontier)
  { frontier := nf, visited := st.visited ++ nf }

/-- Iterate the level step. -/
def bfsIter (nbr : Nat → List Nat) (st : BfsSt) : Nat → BfsSt
  | 0 => st
  | k + 1 => bfsStep nbr (bfsIter nbr st k)

/-- Modelled from the spec: breadth-first search used by
`getNearestDependency` and `getEveryDependency`, run from the start node
for as many levels as the graph has nodes (every reachable node is
discovered: breadth-first levels are empty beyond the node count). -/
def bfsFrom (g : QGraph) (nbr : Nat → List Nat) (start : Nat) : BfsSt :=
  bfsIter nbr { frontier := [[start]], visited := [[start]] } g.nodes.length

/-- Reported hop count of a discovery path: every hop leaves the node next
to it in the stored (reversed) path; with `skip` enabled a hop leaving a
Memory node is free. -/
def pathCost (g : QGraph) (skip : Bool) (p : List Nat) : Nat :=
  (p.drop 1).countP (fun u => !(skip && g.isMem u))

/-- Modelled from the spec: `Graph::getNearestDependency` (declared at
lines 332-333 of DepGraph.h).  Breadth-first search backward from the
sink's node over predecessor edges; the first candidate source node
encountered is returned together with its hop count, where a hop through a
Memory node is not counted when `skipMemoryNodes` is set.  Returns
`(none, -1)` when the sink has no node or no candidate is reached. -/
def Graph.getNearestDependency (g : QGraph) (find : Nat → Option Nat)
    (sink : Nat) (sources : List Nat) (skipMemoryNodes : Bool) :
    Option Nat × Int :=
  match find sink with
  | none => (none, -1)
  | some sN =>
      let cand := sources.filterMap find
      match (bfsFrom g g.predOf sN).visited.find?
          (fun p => cand.contains (entryNode p)) with
      | none => (none, -1)
      | some p => (some (entryNode p), (pathCost g skipMemoryNodes p : Int))

/-- Lookup in the result map of `getEveryDependency`, keyed by source
node. -/
def lookupDep (r : List (Nat × List Nat)) (n : Nat) : Option (List Nat) :=
  (r.find? (fun e => e.1 == n)).map (fun e => e.2)

/-- Modelled from the spec: `Graph::getEveryDependency` (declared at lines
340-342 of DepGraph.h).  One backward breadth-first traversal from the
sink records a discovery path for every visited node; each candidate
source whose node was visited is mapped to its recorded path (an ordered
node sequence from the source's node to the sink's node); unreached
candidates are omitted. -/
def Graph.getEveryDependency (g : QGraph) (find : Nat → Option Nat)
    (sink : Nat) (sources : List Nat) (_skipMemoryNodes : Bool) :
    List (Nat × List Nat) :=
  match find sink with
  | none => []
  | some sN =>
      sources.filterMap (fun s =>
        match find s with
        | none => none
        | some n =>
            match (bfsFrom g g.predOf sN).visited.find?
                (fun p => entryNode p == n) with
            | none => none
            | some p => some (n, p))

/-- Concrete test graph used by the witnesses: nodes 0-5 with the directed
cycle 0 → 1 → 2 → 0, a branch 1 → 3, a separate edge 4 → 5, and node 2
marked as a Memory node. -/
def gW : QGraph :=
  { nodes := [0, 1, 2, 3, 4, 5]
    succOf := fun u =>
      if u = 0 then [1] else if u = 1 then [2, 3]
      else if u = 2 then [0] else if u = 4 then [5] else []
    predOf := fun u =>
      if u = 0 then [2] else if u = 1 then [0]
      else if u = 2 then [1] else if u = 3 then [1]
      else if u = 5 then [4] else []
    isMem := fun u => u == 2 }

/-- Concrete value-to-node map used by the witnesses: values 0-5 map to the
node of the same number, larger values have no node. -/
def findW : Nat → Option Nat :=
  fun v => if v ≤ 5 then some v else none

/-- C10: every Call node is also classified and counted as an Operation node.
The CallNode constructor invokes the OpNode constructor, which increments the
`NrOpNodes` counter; the constructed record carries `Class_ID = 3`, which
`OpNode.classof` accepts (it accepts class IDs 1 and 3); and in general any
node accepted by `CallNode.classof` is accepted by `OpNode.classof`, so the
call nodes are a subset of the operation-classified nodes and are included in
the operation-node counter. -/
theorem callNode_isa_opNode :
    ∀ (nid : Nat) (st : Stats),
      CallNode.classof (CallNode.mkNode nid st).fst = true ∧
      OpNode.classof (CallNode.mkNode nid st).fst = true ∧
      (CallNode.mkNode nid st).snd.nrOpNodes = st.nrOpNodes + 1 ∧
      (∀ n : NodeRec, CallNode.classof n = true → OpNode.classof n = true) := by
  intro nid st
  refine ⟨rfl, rfl, rfl, ?_⟩
  intro n h
  simp only [CallNode.classof, beq_iff_eq] at h
  simp [OpNode.classof, h]

lemma mem_setEntry {l : EdgeList} {a b x y : Nat} {t u : edgeType} :
    (x, y, u) ∈ setEntry l a b t ↔
      (x = a ∧ y = b ∧ u = t) ∨ ((x, y, u) ∈ l ∧ ¬(x = a ∧ y = b)) := by
  simp only [setEntry, List.mem_cons, List.mem_filter, Prod.mk.injEq, Bool.not_eq_true',
    Bool.and_eq_false_iff, beq_eq_false_iff_ne, ne_eq]
  constructor
  · rintro (⟨hx, hy, ht⟩ | ⟨hm, h⟩)
    · exact Or.inl ⟨hx, hy, ht⟩
    · refine Or.inr ⟨hm, ?_⟩
      rintro ⟨hx, hy⟩
      rcases h with h | h
      · exact h hx
      · exact h hy
  · rintro (⟨hx, hy, ht⟩ | ⟨hm, h⟩)
    · exact Or.inl ⟨hx, hy, ht⟩
    · refine Or.inr ⟨hm, ?_⟩
      by_cases hx : x = a
      · exact Or.inr fun hy => h ⟨hx, hy⟩
      · exact Or.inl hx

lemma mem_removeNodeEdges {l : EdgeList} {nid x y : Nat} {u : edgeType} :
    (x, y, u) ∈ removeNodeEdges l nid ↔ (x, y, u) ∈ l ∧ x ≠ nid ∧ y ≠ nid := by
  simp only [removeNodeEdges, List.mem_filter, Bool.not_eq_true', Bool.or_eq_false_iff,
    beq_eq_false_iff_ne, ne_eq]

lemma edgesSymm_step (s : SysState) (op : GOp) (h : EdgesSymm s) :
    EdgesSymm (GOp.step s op) := by
  cases op with
  | newGraph => exact h
  | newOp => exact h
  | newCall => exact h
  | newVar => exact h
  | newMem => exact h
  | delNode nid =>
      simp only [GOp.step]
      cases hf : s.liveNodes.find? (fun n => n.nodeId == nid) with
      | none => exact h
      | some n =>
          intro a b t
          simp only [mem_removeNodeEdges]
          constructor
          · rintro ⟨hm, ha, hb⟩
            exact ⟨(h a b t).mp hm, hb, ha⟩
          · rintro ⟨hm, hb, ha⟩
            exact ⟨(h a b t).mpr hm, ha, hb⟩
  | connect a b t =>
      simp only [GOp.step, connectStep]
      by_cases hmem : (a, b, t) ∈ s.succ
      · simp only [if_pos hmem]; exact h
      · simp only [if_neg hmem]
        intro x y u
        simp only [mem_setEntry]
        constructor
        · rintro (⟨hx, hy, ht⟩ | ⟨hm, hk⟩)
          · exact Or.inl ⟨hy, hx, ht⟩
          · exact Or.inr ⟨(h x y u).mp hm, fun ⟨hy, hx⟩ => hk ⟨hx, hy⟩⟩
        · rintro (⟨hy, hx, ht⟩ | ⟨hm, hk⟩)
          · exact Or.inl ⟨hx, hy, ht⟩
          · exact Or.inr ⟨(h x y u).mpr hm, fun ⟨hx, hy⟩ => hk ⟨hy, hx⟩⟩

lemma edgesSymm_run (ops : List GOp) :
    ∀ s : SysState, EdgesSymm s → EdgesSymm (ops.foldl GOp.step s) := by
  induction ops with
  | nil => intro s h; exact h
  | cons op rest ih =>
      intro s h
      exact ih (GOp.step s op) (edgesSymm_step s op h)

/-- C5: edge symmetry invariant.  In every state reachable by construction
and mutation operations, node `b` is in node `a`'s successor map with edge
type `t` if and only if node `a` is in node `b`'s predecessor map with type
`t`. -/
theorem edge_maps_symmetric :
    ∀ (ops : List GOp) (a b : Nat) (t : edgeType),
      (a, b, t) ∈ (runOps ops).succ ↔ (b, a, t) ∈ (runOps ops).pred := by
  intro ops a b t
  refine edgesSymm_run ops initState ?_ a b t
  intro x y u
  simp [initState]

lemma succKeysNodup_step (s : SysState) (op : GOp) (h : succKeysNodup s) :
    succKeysNodup (GOp.step s op) := by
  cases op with
  | newGraph => exact h
  | newOp => exact h
  | newCall => exact h
  | newVar => exact h
  | newMem => exact h
  | delNode nid =>
      simp only [GOp.step]
      cases hf : s.liveNodes.find? (fun n => n.nodeId == nid) with
      | none => exact h
      | some n =>
          exact List.Nodup.sublist (List.Sublist.map _ (List.filter_sublist _)) h
  | connect a b t =>
      simp only [GOp.step, connectStep]
      by_cases hmem : (a, b, t) ∈ s.succ
      · simp only [if_pos hmem]; exact h
      · simp only [if_neg hmem]
        unfold succKeysNodup setEntry
        simp only [List.map_cons, List.nodup_cons]
        constructor
        · intro hab
          rcases List.mem_map.mp hab with ⟨e, he, hkey⟩
          rcases List.mem_filter.mp he with ⟨_, hp⟩
          have h1 : e.1 = a := congrArg Prod.fst hkey
          have h2 : e.2.1 = b := congrArg Prod.snd hkey
          simp [h1, h2] at hp
        · exact List.Nodup.sublist (List.Sublist.map _ (List.filter_sublist _)) h

lemma succKeysNodup_run (ops : List GOp) :
    ∀ s : SysState, succKeysNodup s → succKeysNodup (ops.foldl GOp.step s) := by
  induction ops with
  | nil => intro s h; exact h
  | cons op rest ih =>
      intro s h
      exact ih (GOp.step s op) (succKeysNodup_step s op h)

lemma succKeysNodup_runOps (ops : List GOp) : succKeysNodup (runOps ops) := by
  refine succKeysNodup_run ops initState ?_
  simp [succKeysNodup, initState]

lemma countP_eq_one_of_nodup_mem {α : Type} [DecidableEq α] :
    ∀ (l : List α), l.Nodup → ∀ e : α, e ∈ l →
      l.countP (fun x => decide (x = e)) = 1 := by
  intro l
  induction l with
  | nil => intro _ e he; cases he
  | cons a rest ih =>
      intro hnd e he
      rcases List.nodup_cons.mp hnd with ⟨ha, hrest⟩
      rw [List.countP_cons]
      by_cases hae : a = e
      · subst hae
        have h0 : rest.countP (fun x => decide (x = a)) = 0 := by
          rw [List.countP_eq_zero]
          intro x hx hxe
          exact ha ((of_decide_eq_true hxe) ▸ hx)
        simp [h0]
      · have he2 : e ∈ rest := by
          rcases List.mem_cons.mp he with h | h
          · exact absurd h.symm hae
          · exact h
        have := ih hrest e he2
        simp [this, hae]

lemma connect_mem_noop (s : SysState) (a b : Nat) (t : edgeType)
    (h : (a, b, t) ∈ s.succ) : GOp.step s (.connect a b t) = s := by
  simp only [GOp.step, connectStep, if_pos h]

/-- C6: connect is idempotent per `(source, destination, type)` triple.  For
any reachable state, the second of two identical connect calls is a no-op
(the whole state, counter included, is unchanged), the resulting successor
map holds exactly one edge of that type between the pair, and the global
edge counter grows by exactly one when the triple was not present and by
zero when it was. -/
theorem connect_idempotent (ops : List GOp) (a b : Nat) (t : edgeType) :
    GOp.step (GOp.step (runOps ops) (.connect a b t)) (.connect a b t)
        = GOp.step (runOps ops) (.connect a b t) ∧
    (GOp.step (runOps ops) (.connect a b t)).succ.countP
        (fun e => decide (e = (a, b, t))) = 1 ∧
    ((a, b, t) ∉ (runOps ops).succ →
      (GOp.step (runOps ops) (.connect a b t)).stats.nrEdges
        = (runOps ops).stats.nrEdges + 1) ∧
    ((a, b, t) ∈ (runOps ops).succ →
      (GOp.step (runOps ops) (.connect a b t)).stats.nrEdges
        = (runOps ops).stats.nrEdges) := by
  have hnd := succKeysNodup_runOps ops
  set s := runOps ops with hs
  by_cases hmem : (a, b, t) ∈ s.succ
  · have hstep := connect_mem_noop s a b t hmem
    refine ⟨by rw [hstep]; exact hstep, ?_, fun hc => absurd hmem hc, fun _ => by rw [hstep]⟩
    rw [hstep]
    exact countP_eq_one_of_nodup_mem s.succ (List.Nodup.of_map _ hnd) _ hmem
  · have hstep :
        GOp.step s (.connect a b t) =
          { s with
            succ := setEntry s.succ a b t
            pred := setEntry s.pred b a t
            stats := { s.stats with nrEdges := s.stats.nrEdges + 1 } } := by
      simp only [GOp.step, connectStep, if_neg hmem]
    have hmem1 : (a, b, t) ∈ (GOp.step s (.connect a b t)).succ := by
      rw [hstep]
      exact List.mem_cons_self _ _
    refine ⟨connect_mem_noop _ a b t hmem1, ?_, fun _ => by rw [hstep], fun hc => absurd hc hmem⟩
    rw [hstep]
    show (setEntry s.succ a b t).countP (fun e => decide (e = (a, b, t))) = 1
    unfold setEntry
    rw [List.countP_cons]
    have h0 : (s.succ.filter (fun e => !(e.1 == a && e.2.1 == b))).countP
        (fun e => decide (e = (a, b, t))) = 0 := by
      rw [List.countP_eq_zero]
      intro x hx hxe
      rcases List.mem_filter.mp hx with ⟨_, hp⟩
      rw [of_decide_eq_true hxe] at hp
      simp at hp
    rw [h0]
    simp

theorem connect_idempotent_witness :
    GOp.step (GOp.step (runOps [GOp.newOp, GOp.newOp]) (.connect 0 1 .etData))
        (.connect 0 1 .etData)
      = GOp.step (runOps [GOp.newOp, GOp.newOp]) (.connect 0 1 .etData) ∧
    (0, 1, edgeType.etData) ∉ (runOps [GOp.newOp, GOp.newOp]).succ ∧
    (GOp.step (runOps [GOp.newOp, GOp.newOp]) (.connect 0 1 .etData)).stats.nrEdges
      = (runOps [GOp.newOp, GOp.newOp]).stats.nrEdges + 1 :=
  ⟨(connect_idempotent [GOp.newOp, GOp.newOp] 0 1 .etData).1, by decide,
   (connect_idempotent [GOp.newOp, GOp.newOp] 0 1 .etData).2.2.1 (by decide)⟩

lemma length_filter_not_add {α : Type} (l : List α) (p : α → Bool) :
    (l.filter p).length + (l.filter (fun x => !p x)).length = l.length := by
  induction l with
  | nil => rfl
  | cons a rest ih => cases hp : p a <;> simp [List.filter_cons, hp] <;> omega

lemma delNode_count (cls : NodeRec → Bool) (nid : Nat) :
    ∀ (l : List NodeRec) (n : NodeRec),
      (l.map NodeRec.nodeId).Nodup →
      l.find? (fun m => m.nodeId == nid) = some n →
      ((l.filter (fun m => !(m.nodeId == nid))).filter cls).length
          + (if cls n = true then 1 else 0)
        = (l.filter cls).length := by
  intro l
  induction l with
  | nil => intro n _ hf; cases hf
  | cons a rest ih =>
      intro n hnd hf
      have hnd2 : (a.nodeId ∉ rest.map NodeRec.nodeId) ∧ (rest.map NodeRec.nodeId).Nodup := by
        rw [List.map_cons, List.nodup_cons] at hnd
        exact hnd
      by_cases hpa : a.nodeId = nid
      · have hfa : (a :: rest).find? (fun m => m.nodeId == nid) = some a := by
          rw [List.find?_cons]
          simp [hpa]
        have hna : a = n := Option.some.inj (hfa.symm.trans hf)
        subst hna
        have h2 : rest.filter (fun m => !(m.nodeId == nid)) = rest := by
          rw [List.filter_eq_self]
          intro m hm
          have hne : m.nodeId ≠ nid := by
            intro he
            apply hnd2.1
            rw [hpa, ← he]
            exact List.mem_map_of_mem NodeRec.nodeId hm
          simp [hne]
        have h1 : (a :: rest).filter (fun m => !(m.nodeId == nid)) = rest := by
          rw [List.filter_cons]
          simp [hpa, h2]
        rw [h1, List.filter_cons]
        by_cases hcls : cls a = true
        · rw [if_pos hcls, if_pos hcls]
          simp
        · rw [if_neg hcls, if_neg hcls]
          simp
      · have hfa : (a :: rest).find? (fun m => m.nodeId == nid)
            = rest.find? (fun m => m.nodeId == nid) :=
          List.find?_cons_of_neg _ (by simp [hpa])
        rw [hfa] at hf
        have h1 : (a :: rest).filter (fun m => !(m.nodeId == nid))
            = a :: rest.filter (fun m => !(m.nodeId == nid)) :=
          List.filter_cons_of_pos (by simp [hpa])
        rw [h1, List.filter_cons, List.filter_cons]
        have hrec := ih n hnd2.2 hf
        by_cases hcls : cls a = true
        · rw [if_pos hcls, if_pos hcls]
          simp only [List.length_cons]
          omega
        · rw [if_neg hcls, if_neg hcls]
          exact hrec

lemma dtorStats_decrements (st : Stats) (n : NodeRec) :
    (dtorStats st n.classId).nrOpNodes
        = st.nrOpNodes - (if OpNode.classof n = true then 1 else 0) ∧
    (dtorStats st n.classId).nrVarNodes
        = st.nrVarNodes - (if VarNode.classof n = true then 1 else 0) ∧
    (dtorStats st n.classId).nrMemNodes
        = st.nrMemNodes - (if MemNode.classof n = true then 1 else 0) ∧
    (dtorStats st n.classId).nrEdges = st.nrEdges := by
  unfold dtorStats OpNode.classof VarNode.classof MemNode.classof
  split_ifs with h1 h2 h3 <;> simp_all

lemma uniformConnects_cons {op : GOp} {rest : List GOp}
    (h : uniformConnects (op :: rest) = true) :
    uniformConnects rest = true ∧ ∀ y ∈ rest, sameConnectSameType op y = true := by
  simp only [uniformConnects, List.all_eq_true, List.mem_cons] at h ⊢
  constructor
  · intro x hx y hy
    exact h x (Or.inr hx) y (Or.inr hy)
  · intro y hy
    exact h op (Or.inl rfl) y (Or.inr hy)

lemma sameConnect_eq {a b : Nat} {t u : edgeType}
    (h : sameConnectSameType (.connect a b t) (.connect a b u) = true) : t = u := by
  simp [sameConnectSameType] at h
  exact h

lemma filter_cons_length {α : Type} (cls : α → Bool) (a : α) (l : List α) :
    ((a :: l).filter cls).length
      = (l.filter cls).length + (if cls a = true then 1 else 0) := by
  rw [List.filter_cons]
  split_ifs <;> simp

lemma nodeCC_of (s s2 : SysState) (nd : NodeRec)
    (hl : s2.liveNodes = nd :: s.liveNodes)
    (hOp : s2.stats.nrOpNodes
        = s.stats.nrOpNodes + (if OpNode.classof nd = true then 1 else 0))
    (hVar : s2.stats.nrVarNodes
        = s.stats.nrVarNodes + (if VarNode.classof nd = true then 1 else 0))
    (hMem : s2.stats.nrMemNodes
        = s.stats.nrMemNodes + (if MemNode.classof nd = true then 1 else 0))
    (hnode : nodeCountersConsistent s) :
    nodeCountersConsistent s2 := by
  rcases hnode with ⟨h1, h2, h3⟩
  refine ⟨?_, ?_, ?_⟩
  · rw [hOp, h1]
    simp only [liveCount, hl, filter_cons_length]
    split_ifs <;> push_cast <;> ring
  · rw [hVar, h2]
    simp only [liveCount, hl, filter_cons_length]
    split_ifs <;> push_cast <;> ring
  · rw [hMem, h3]
    simp only [liveCount, hl, filter_cons_length]
    split_ifs <;> push_cast <;> ring

lemma idsOk_cons (s s2 : SysState) (nd : NodeRec)
    (hl : s2.liveNodes = nd :: s.liveNodes) (hid : nd.nodeId = s.nextId)
    (hni : s2.nextId = s.nextId + 1)
    (hnd : (s.liveNodes.map NodeRec.nodeId).Nodup)
    (hbound : ∀ n ∈ s.liveNodes, n.nodeId < s.nextId) :
    ((s2.liveNodes.map NodeRec.nodeId).Nodup
      ∧ ∀ n ∈ s2.liveNodes, n.nodeId < s2.nextId) := by
  constructor
  · rw [hl, List.map_cons, List.nodup_cons]
    refine ⟨?_, hnd⟩
    intro hmem
    rcases List.mem_map.mp hmem with ⟨m, hm, hid2⟩
    have := hbound m hm
    omega
  · intro m hm
    rw [hl] at hm
    rw [hni]
    rcases List.mem_cons.mp hm with hm | hm
    · rw [hm, hid]; omega
    · have := hbound m hm; omega

lemma countersConsistent_aux :
    ∀ (ops : List GOp) (seen : Bool) (s : SysState),
      nodeCountersConsistent s →
      (s.liveNodes.map NodeRec.nodeId).Nodup →
      (∀ n ∈ s.liveNodes, n.nodeId < s.nextId) →
      s.stats.nrEdges = (liveEdgeCount s : Int) →
      (seen = false → s.succ = []) →
      (∀ a b t u, (a, b, t) ∈ s.succ → GOp.connect a b u ∈ ops → t = u) →
      uniformConnects ops = true →
      graphsFirst seen ops = true →
      countersConsistent (ops.foldl GOp.step s) := by
  intro ops
  induction ops with
  | nil =>
      intro seen s hnode _ _ hedge _ _ _ _
      exact ⟨hnode, hedge⟩
  | cons op rest ih =>
      intro seen s hnode hnd hbound hedge hseen hcompat huni hgf
      have huni2 := uniformConnects_cons huni
      rw [List.foldl_cons]
      cases op with
      | newGraph =>
          have hgf2 : seen = false ∧ graphsFirst seen rest = true := by
            revert hgf; cases seen <;> simp [graphsFirst]
          have hsucc0 : s.succ = [] := hseen hgf2.1
          refine ih seen _ hnode hnd hbound ?_ (fun _ => hsucc0) ?_ huni2.1 hgf2.2
          · show (0 : Int) = (liveEdgeCount { s with stats := { s.stats with nrEdges := 0 } } : Int)
            simp [liveEdgeCount, hsucc0]
          · intro a b t u hm hr
            exact hcompat a b t u hm (List.mem_cons_of_mem _ hr)
      | newOp =>
          have hgf2 : graphsFirst seen rest = true := by
            revert hgf; cases seen <;> simp [graphsFirst, GOp.touchesEdges]
          have hids := idsOk_cons s (GOp.step s GOp.newOp)
            { classId := 1, nodeId := s.nextId } rfl rfl rfl hnd hbound
          refine ih seen _
            (nodeCC_of s _ { classId := 1, nodeId := s.nextId } rfl
              (by simp [GOp.step, OpNode.mkNode, OpNode.classof])
              (by simp [GOp.step, OpNode.mkNode, VarNode.classof])
              (by simp [GOp.step, OpNode.mkNode, MemNode.classof]) hnode)
            hids.1 hids.2 hedge hseen ?_ huni2.1 hgf2
          intro x y v u hmem hr
          exact hcompat x y v u hmem (List.mem_cons_of_mem _ hr)
      | newCall =>
          have hgf2 : graphsFirst seen rest = true := by
            revert hgf; cases seen <;> simp [graphsFirst, GOp.touchesEdges]
          have hids := idsOk_cons s (GOp.step s GOp.newCall)
            { classId := 3, nodeId := s.nextId } rfl rfl rfl hnd hbound
          refine ih seen _
            (nodeCC_of s _ { classId := 3, nodeId := s.nextId } rfl
              (by simp [GOp.step, CallNode.mkNode, OpNode.mkNode, OpNode.classof])
              (by simp [GOp.step, CallNode.mkNode, OpNode.mkNode, VarNode.classof])
              (by simp [GOp.step, CallNode.mkNode, OpNode.mkNode, MemNode.classof]) hnode)
            hids.1 hids.2 hedge hseen ?_ huni2.1 hgf2
          intro x y v u hmem hr
          exact hcompat x y v u hmem (List.mem_cons_of_mem _ hr)
      | newVar =>
          have hgf2 : graphsFirst seen rest = true := by
            revert hgf; cases seen <;> simp [graphsFirst, GOp.touchesEdges]
          have hids := idsOk_cons s (GOp.step s GOp.newVar)
            { classId := 2, nodeId := s.nextId } rfl rfl rfl hnd hbound
          refine ih seen _
            (nodeCC_of s _ { classId := 2, nodeId := s.nextId } rfl
              (by simp [GOp.step, VarNode.mkNode, OpNode.classof])
              (by simp [GOp.step, VarNode.mkNode, VarNode.classof])
              (by simp [GOp.step, VarNode.mkNode, MemNode.classof]) hnode)
            hids.1 hids.2 hedge hseen ?_ huni2.1 hgf2
          intro x y v u hmem hr
          exact hcompat x y v u hmem (List.mem_cons_of_mem _ hr)
      | newMem =>
          have hgf2 : graphsFirst seen rest = true := by
            revert hgf; cases seen <;> simp [graphsFirst, GOp.touchesEdges]
          have hids := idsOk_cons s (GOp.step s GOp.newMem)
            { classId := 4, nodeId := s.nextId } rfl rfl rfl hnd hbound
          refine ih seen _
            (nodeCC_of s _ { classId := 4, nodeId := s.nextId } rfl
              (by simp [GOp.step, MemNode.mkNode, OpNode.classof])
              (by simp [GOp.step, MemNode.mkNode, VarNode.classof])
              (by simp [GOp.step, MemNode.mkNode, MemNode.classof]) hnode)
            hids.1 hids.2 hedge hseen ?_ huni2.1 hgf2
          intro x y v u hmem hr
          exact hcompat x y v u hmem (List.mem_cons_of_mem _ hr)
      | delNode nid =>
          have hgf2 : graphsFirst true rest = true := by
            revert hgf; cases seen <;> simp [graphsFirst, GOp.touchesEdges]
          cases hfind : s.liveNodes.find? (fun m => m.nodeId == nid) with
          | none =>
              have hstep : GOp.step s (.delNode nid) = s := by
                simp only [GOp.step, hfind]
              rw [hstep]
              refine ih true s hnode hnd hbound hedge (by simp) ?_ huni2.1 hgf2
              intro a b t u hm hr
              exact hcompat a b t u hm (List.mem_cons_of_mem _ hr)
          | some n =>
              have hstep : GOp.step s (.delNode nid)
                  = { s with
                      liveNodes := s.liveNodes.filter (fun m => !(m.nodeId == nid))
                      succ := removeNodeEdges s.succ nid
                      pred := removeNodeEdges s.pred nid
                      stats :=
                        let st := dtorStats s.stats n.classId
                        { st with
                          nrEdges := st.nrEdges - (severCount s.succ nid : Int) } } := by
                simp only [GOp.step, hfind]
              rw [hstep]
              have hdt := dtorStats_decrements s.stats n
              refine ih true _ ?_ ?_ ?_ ?_ (by simp) ?_ huni2.1 hgf2
              · rcases hnode with ⟨h1, h2, h3⟩
                refine ⟨?_, ?_, ?_⟩
                · have hc := delNode_count OpNode.classof nid s.liveNodes n hnd hfind
                  show (dtorStats s.stats n.classId).nrOpNodes = _
                  rw [hdt.1, h1]
                  have hgoal : (liveCount s OpNode.classof : Int)
                        - (if OpNode.classof n = true then 1 else 0)
                      = (((s.liveNodes.filter (fun m => !(m.nodeId == nid))).filter
                          OpNode.classof).length : Int) := by
                    rw [show liveCount s OpNode.classof
                        = (s.liveNodes.filter OpNode.classof).length from rfl, ← hc]
                    split_ifs <;> push_cast <;> ring
                  exact hgoal
                · have hc := delNode_count VarNode.classof nid s.liveNodes n hnd hfind
                  show (dtorStats s.stats n.classId).nrVarNodes = _
                  rw [hdt.2.1, h2]
                  have hgoal : (liveCount s VarNode.classof : Int)
                        - (if VarNode.classof n = true then 1 else 0)
                      = (((s.liveNodes.filter (fun m => !(m.nodeId == nid))).filter
                          VarNode.classof).length : Int) := by
                    rw [show liveCount s VarNode.classof
                        = (s.liveNodes.filter VarNode.classof).length from rfl, ← hc]
                    split_ifs <;> push_cast <;> ring
                  exact hgoal
                · have hc := delNode_count MemNode.classof nid s.liveNodes n hnd hfind
                  show (dtorStats s.stats n.classId).nrMemNodes = _
                  rw [hdt.2.2.1, h3]
                  have hgoal : (liveCount s MemNode.classof : Int)
                        - (if MemNode.classof n = true then 1 else 0)
                      = (((s.liveNodes.filter (fun m => !(m.nodeId == nid))).filter
                          MemNode.classof).length : Int) := by
                    rw [show liveCount s MemNode.classof
                        = (s.liveNodes.filter MemNode.classof).length from rfl, ← hc]
                    split_ifs <;> push_cast <;> ring
                  exact hgoal
              · exact List.Nodup.sublist (List.Sublist.map _ (List.filter_sublist _)) hnd
              · intro m hm
                exact hbound m (List.mem_of_mem_filter hm)
              · show (dtorStats s.stats n.classId).nrEdges - (severCount s.succ nid : Int)
                    = (liveEdgeCount _ : Int)
                rw [hdt.2.2.2, hedge]
                have hlen := length_filter_not_add s.succ (fun e => e.1 == nid || e.2.1 == nid)
                simp only [liveEdgeCount, removeNodeEdges, severCount] at *
                omega
              · intro a b t u hm hr
                exact hcompat a b t u (mem_removeNodeEdges.mp hm).1
                  (List.mem_cons_of_mem _ hr)
      | connect a b t =>
          have hgf2 : graphsFirst true rest = true := by
            revert hgf; cases seen <;> simp [graphsFirst, GOp.touchesEdges]
          by_cases hm : (a, b, t) ∈ s.succ
          · rw [connect_mem_noop s a b t hm]
            refine ih true s hnode hnd hbound hedge (by simp) ?_ huni2.1 hgf2
            intro x y v u hmem hr
            exact hcompat x y v u hmem (List.mem_cons_of_mem _ hr)
          · have hkey : ∀ e ∈ s.succ, (!(e.1 == a && e.2.1 == b)) = true := by
              intro e he
              obtain ⟨x, y, u⟩ := e
              by_contra hcon
              have hcon2 : (x == a && y == b) = true := by
                cases hxy : (x == a && y == b)
                · exact absurd (by rw [hxy]; rfl) hcon
                · rfl
              rw [Bool.and_eq_true, beq_iff_eq, beq_iff_eq] at hcon2
              obtain ⟨hx, hy⟩ := hcon2
              subst hx; subst hy
              have hut : u = t := hcompat x y u t he (List.mem_cons_self _ _)
              exact hm (hut ▸ he)
            have hfe : s.succ.filter (fun e => !(e.1 == a && e.2.1 == b)) = s.succ :=
              List.filter_eq_self.mpr hkey
            have hstep : GOp.step s (.connect a b t)
                = { s with
                    succ := (a, b, t) :: s.succ
                    pred := setEntry s.pred b a t
                    stats := { s.stats with nrEdges := s.stats.nrEdges + 1 } } := by
              simp only [GOp.step, connectStep, if_neg hm, setEntry, hfe]
            rw [hstep]
            refine ih true _ hnode hnd hbound ?_ (by simp) ?_ huni2.1 hgf2
            · show s.stats.nrEdges + 1 = (liveEdgeCount _ : Int)
              rw [hedge]
              simp [liveEdgeCount]
            · intro x y v u hmem hr
              rcases List.mem_cons.mp hmem with hh | hh
              · have hxa : x = a := congrArg (fun p => p.1) hh
                have hyb : y = b := congrArg (fun p => p.2.1) hh
                have hvt : v = t := congrArg (fun p => p.2.2) hh
                subst hxa; subst hyb; subst hvt
                exact sameConnect_eq (huni2.2 _ hr)
              · exact hcompat x y v u hh (List.mem_cons_of_mem _ hr)

/-- C9, counterexample.  The claim asserts that the global edge counter
matches the live edge set in every reachable state, explicitly including
states in which more than one Graph instance has been constructed.  The
Graph constructor (inline in the header) resets the global `NrEdges`
counter to zero, so constructing a second Graph while an edge is live
leaves the counter at 0 with one live edge: the trace below constructs a
graph, two operation nodes and one edge, then constructs a second graph. -/
theorem counters_counterexample :
    ¬ countersConsistent
      (runOps [GOp.newGraph, GOp.newOp, GOp.newOp,
        GOp.connect 0 1 edgeType.etData, GOp.newGraph]) := by
  decide

/-- C9, amended.  Counter consistency does hold on every reachable state
whose trace satisfies two conditions forced by the code: every Graph
construction precedes every connect and every node deletion (the Graph
constructor resets the global edge counter to zero, discarding any live
count), and no ordered node pair is connected with two different edge
types (the per-node adjacency container keeps one entry per neighbour, so
re-typing an existing edge would increment the counter without growing the
edge set).  Under those conditions the per-node-type population counters
equal the live node counts and the edge counter equals the live edge
count. -/
theorem counters_consistent_amended (ops : List GOp)
    (hgf : graphsFirst false ops = true)
    (huni : uniformConnects ops = true) :
    countersConsistent (runOps ops) := by
  refine countersConsistent_aux ops false initState ?_ ?_ ?_ ?_ ?_ ?_ huni hgf
  · exact ⟨rfl, rfl, rfl⟩
  · simp [initState]
  · intro n hn; cases hn
  · rfl
  · intro _; rfl
  · intro a b t u hmem _; cases hmem

theorem counters_consistent_amended_witness :
    graphsFirst false
        [GOp.newGraph, GOp.newOp, GOp.newVar, GOp.newMem,
          GOp.connect 0 1 edgeType.etData, GOp.connect 0 1 edgeType.etData,
          GOp.connect 1 2 edgeType.etControl, GOp.delNode 0] = true ∧
    uniformConnects
        [GOp.newGraph, GOp.newOp, GOp.newVar, GOp.newMem,
          GOp.connect 0 1 edgeType.etData, GOp.connect 0 1 edgeType.etData,
          GOp.connect 1 2 edgeType.etControl, GOp.delNode 0] = true ∧
    countersConsistent
      (runOps [GOp.newGraph, GOp.newOp, GOp.newVar, GOp.newMem,
        GOp.connect 0 1 edgeType.etData, GOp.connect 0 1 edgeType.etData,
        GOp.connect 1 2 edgeType.etControl, GOp.delNode 0]) :=
  ⟨by decide, by decide,
    counters_consistent_amended _ (by decide) (by decide)⟩

lemma lookupM_addInst_stable (oracle : Nat → Option Int) (isCall valid : Nat → Bool)
    (g : BGraph) (v : Nat) (asid : Int) (n : Nat)
    (h : lookupM g.memNodes asid = some n) :
    lookupM (Graph.addInst oracle isCall valid g v).snd.memNodes asid = some n := by
  unfold Graph.addInst
  by_cases hv : valid v = false
  · rw [if_pos hv]; exact h
  · rw [if_neg hv]
    cases horacle : oracle v with
    | none =>
        dsimp only
        cases hc : isCall v
        · simp only [Bool.false_eq_true, if_false]
          cases hl : lookupV g.opNodes v <;> exact h
        · simp only [if_true]
          cases hl : lookupV g.callNodes v <;> exact h
    | some asid2 =>
        dsimp only
        cases hl : lookupM g.memNodes asid2 with
        | some m => exact h
        | none =>
            have hne : asid2 ≠ asid := by
              intro he
              rw [he, h] at hl
              cases hl
            show lookupM ((asid2, g.nextId) :: g.memNodes) asid = some n
            unfold lookupM
            rw [List.find?_cons_of_neg _ (by simp [hne])]
            exact h

lemma lookupM_buildRun_stable (oracle : Nat → Option Int) (isCall valid : Nat → Bool)
    (asid : Int) (n : Nat) :
    ∀ (vs : List Nat) (g : BGraph),
      lookupM g.memNodes asid = some n →
      lookupM (Graph.buildRun oracle isCall valid g vs).memNodes asid = some n := by
  intro vs
  induction vs with
  | nil => intro g h; exact h
  | cons v rest ih =>
      intro g h
      exact ih _ (lookupM_addInst_stable oracle isCall valid g v asid n h)

lemma addInst_creates (oracle : Nat → Option Int) (isCall valid : Nat → Bool)
    (g : BGraph) (v : Nat) (asid : Int)
    (hv : valid v = true) (ho : oracle v = some asid) :
    ∃ n, (Graph.addInst oracle isCall valid g v).fst = some n ∧
      lookupM (Graph.addInst oracle isCall valid g v).snd.memNodes asid = some n := by
  unfold Graph.addInst
  rw [if_neg (by simp [hv]), ho]
  dsimp only
  cases hl : lookupM g.memNodes asid with
  | some n => exact ⟨n, rfl, hl⟩
  | none =>
      refine ⟨g.nextId, rfl, ?_⟩
      show lookupM ((asid, g.nextId) :: g.memNodes) asid = some g.nextId
      unfold lookupM
      rw [List.find?_cons_of_pos _ (by simp)]
      rfl

lemma addInst_ret_of_lookup (oracle : Nat → Option Int) (isCall valid : Nat → Bool)
    (g : BGraph) (v : Nat) (asid : Int) (n : Nat)
    (hv : valid v = true) (ho : oracle v = some asid)
    (hl : lookupM g.memNodes asid = some n) :
    (Graph.addInst oracle isCall valid g v).fst = some n := by
  unfold Graph.addInst
  rw [if_neg (by simp [hv]), ho]
  dsimp only
  rw [hl]

lemma memKeysNodup_addInst (oracle : Nat → Option Int) (isCall valid : Nat → Bool)
    (g : BGraph) (v : Nat)
    (h : (g.memNodes.map Prod.fst).Nodup) :
    ((Graph.addInst oracle isCall valid g v).snd.memNodes.map Prod.fst).Nodup := by
  unfold Graph.addInst
  by_cases hv : valid v = false
  · rw [if_pos hv]; exact h
  · rw [if_neg hv]
    cases horacle : oracle v with
    | none =>
        dsimp only
        cases hc : isCall v
        · simp only [Bool.false_eq_true, if_false]
          cases hl : lookupV g.opNodes v <;> exact h
        · simp only [if_true]
          cases hl : lookupV g.callNodes v <;> exact h
    | some asid2 =>
        dsimp only
        cases hl : lookupM g.memNodes asid2 with
        | some m => exact h
        | none =>
            show ((((asid2, g.nextId) :: g.memNodes)).map Prod.fst).Nodup
            rw [List.map_cons, List.nodup_cons]
            refine ⟨?_, h⟩
            intro hmem
            rcases List.mem_map.mp hmem with ⟨e, he, hkey⟩
            have hfind := List.find?_eq_none.mp (by
              unfold lookupM at hl
              cases hf : g.memNodes.find? (fun e => e.1 == asid2)
              · rfl
              · rw [hf] at hl; cases hl) e he
            simp only [hkey] at hfind
            simp at hfind

lemma memKeysNodup_buildRun (oracle : Nat → Option Int) (isCall valid : Nat → Bool) :
    ∀ (vs : List Nat) (g : BGraph),
      (g.memNodes.map Prod.fst).Nodup →
      ((Graph.buildRun oracle isCall valid g vs).memNodes.map Prod.fst).Nodup := by
  intro vs
  induction vs with
  | nil => intro g h; exact h
  | cons v rest ih =>
      intro g h
      exact ih _ (memKeysNodup_addInst oracle isCall valid g v h)

/-- C7: alias collapsing.  If the alias oracle reports the same alias-set
ID for two valid values, graph construction routes both through the
identical Memory node: the node returned when the first value is added is
returned again when the second value is added, no matter which other
instructions are added in between; the first addition does produce a node;
and the Memory-node index of any constructed graph holds at most one node
per alias-set ID. -/
theorem addInst_alias_collapsing (oracle : Nat → Option Int) (isCall valid : Nat → Bool)
    (vs : List Nat) (v1 v2 : Nat) (asid : Int)
    (h1 : oracle v1 = some asid) (h2 : oracle v2 = some asid)
    (hv1 : valid v1 = true) (hv2 : valid v2 = true) :
    (Graph.addInst oracle isCall valid
        (Graph.buildRun oracle isCall valid
          (Graph.addInst oracle isCall valid emptyB v1).snd vs) v2).fst
      = (Graph.addInst oracle isCall valid emptyB v1).fst ∧
    ((Graph.addInst oracle isCall valid emptyB v1).fst).isSome = true ∧
    ∀ ws : List Nat,
      ((Graph.buildRun oracle isCall valid emptyB ws).memNodes.map Prod.fst).Nodup := by
  obtain ⟨n, hret, hlook⟩ := addInst_creates oracle isCall valid emptyB v1 asid hv1 h1
  have hlook2 := lookupM_buildRun_stable oracle isCall valid asid n vs _ hlook
  refine ⟨?_, by rw [hret]; rfl, ?_⟩
  · rw [hret]
    exact addInst_ret_of_lookup oracle isCall valid _ v2 asid n hv2 h2 hlook2
  · intro ws
    exact memKeysNodup_buildRun oracle isCall valid ws emptyB (by simp [emptyB])

theorem addInst_alias_collapsing_witness :
    (Graph.addInst (fun v => if v == 0 || v == 2 then some 5 else none)
        (fun v => v == 3) (fun _ => true)
        (Graph.buildRun (fun v => if v == 0 || v == 2 then some 5 else none)
          (fun v => v == 3) (fun _ => true)
          (Graph.addInst (fun v => if v == 0 || v == 2 then some 5 else none)
            (fun v => v == 3) (fun _ => true) emptyB 0).snd [3, 1, 2]) 2).fst
      = (Graph.addInst (fun v => if v == 0 || v == 2 then some 5 else none)
          (fun v => v == 3) (fun _ => true) emptyB 0).fst ∧
    ((Graph.addInst (fun v => if v == 0 || v == 2 then some 5 else none)
        (fun v => v == 3) (fun _ => true) emptyB 0).fst).isSome = true :=
  ⟨(addInst_alias_collapsing (fun v => if v == 0 || v == 2 then some 5 else none)
      (fun v => v == 3) (fun _ => true) [3, 1, 2] 0 2 5 rfl rfl rfl rfl).1,
   (addInst_alias_collapsing (fun v => if v == 0 || v == 2 then some 5 else none)
      (fun v => v == 3) (fun _ => true) [3, 1, 2] 0 2 5 rfl rfl rfl rfl).2.1⟩

lemma dfs_visited_subset (g : QGraph) (nbr : Nat → List Nat) :
    ∀ (stack visited : List Nat), visited ⊆ dfsAux g nbr stack visited := by
  intro stack visited
  induction stack, visited using dfsAux.induct g nbr with
  | case1 visited =>
      rw [dfsAux]
      exact fun x hx => hx
  | case2 u stack visited hmem ih =>
      rw [dfsAux, if_pos hmem]; exact ih
  | case3 u stack visited hmem hnode ih =>
      rw [dfsAux, if_neg hmem, if_pos hnode]
      exact fun x hx => ih (List.mem_cons_of_mem _ hx)
  | case4 u stack visited hmem hnode ih =>
      rw [dfsAux, if_neg hmem, if_neg hnode]; exact ih

lemma dfs_subset_nodes (g : QGraph) (nbr : Nat → List Nat) :
    ∀ (stack visited : List Nat), (∀ v ∈ visited, v ∈ g.nodes) →
      ∀ x ∈ dfsAux g nbr stack visited, x ∈ g.nodes := by
  intro stack visited
  induction stack, visited using dfsAux.induct g nbr with
  | case1 visited =>
      intro h x hx; rw [dfsAux] at hx; exact h x hx
  | case2 u stack visited hmem ih =>
      intro h x hx; rw [dfsAux, if_pos hmem] at hx; exact ih h x hx
  | case3 u stack visited hmem hnode ih =>
      intro h x hx
      rw [dfsAux, if_neg hmem, if_pos hnode] at hx
      refine ih ?_ x hx
      intro v hv
      rcases List.mem_cons.mp hv with hv | hv
      · rw [hv]; exact hnode
      · exact h v hv
  | case4 u stack visited hmem hnode ih =>
      intro h x hx; rw [dfsAux, if_neg hmem, if_neg hnode] at hx; exact ih h x hx

lemma dfs_nodup (g : QGraph) (nbr : Nat → List Nat) :
    ∀ (stack visited : List Nat), visited.Nodup →
      (dfsAux g nbr stack visited).Nodup := by
  intro stack visited
  induction stack, visited using dfsAux.induct g nbr with
  | case1 visited =>
      intro h; rw [dfsAux]; exact h
  | case2 u stack visited hmem ih =>
      intro h; rw [dfsAux, if_pos hmem]; exact ih h
  | case3 u stack visited hmem hnode ih =>
      intro h
      rw [dfsAux, if_neg hmem, if_pos hnode]
      exact ih (List.nodup_cons.mpr ⟨hmem, h⟩)
  | case4 u stack visited hmem hnode ih =>
      intro h; rw [dfsAux, if_neg hmem, if_neg hnode]; exact ih h

lemma dfs_mem_of_stack (g : QGraph) (nbr : Nat → List Nat) :
    ∀ (stack visited : List Nat) (x : Nat), x ∈ stack → x ∈ g.nodes →
      x ∈ dfsAux g nbr stack visited := by
  intro stack visited
  induction stack, visited using dfsAux.induct g nbr with
  | case1 visited =>
      intro x hx _; cases hx
  | case2 u stack visited hmem ih =>
      intro x hx hxn
      rw [dfsAux, if_pos hmem]
      rcases List.mem_cons.mp hx with hx | hx
      · exact dfs_visited_subset g nbr stack visited (hx ▸ hmem)
      · exact ih x hx hxn
  | case3 u stack visited hmem hnode ih =>
      intro x hx hxn
      rw [dfsAux, if_neg hmem, if_pos hnode]
      rcases List.mem_cons.mp hx with hx | hx
      · exact dfs_visited_subset g nbr _ _ (hx ▸ List.mem_cons_self u visited)
      · exact ih x (List.mem_append_right _ hx) hxn
  | case4 u stack visited hmem hnode ih =>
      intro x hx hxn
      rw [dfsAux, if_neg hmem, if_neg hnode]
      rcases List.mem_cons.mp hx with hx | hx
      · exact absurd hxn (hx ▸ hnode)
      · exact ih x hx hxn

lemma dfs_sound (g : QGraph) (nbr : Nat → List Nat) :
    ∀ (stack visited : List Nat) (x : Nat), x ∈ dfsAux g nbr stack visited →
      x ∈ visited ∨ ∃ s ∈ stack, Reaches nbr s x := by
  intro stack visited
  induction stack, visited using dfsAux.induct g nbr with
  | case1 visited =>
      intro x hx; rw [dfsAux] at hx; exact Or.inl hx
  | case2 u stack visited hmem ih =>
      intro x hx
      rw [dfsAux, if_pos hmem] at hx
      rcases ih x hx with h | ⟨s, hs, hr⟩
      · exact Or.inl h
      · exact Or.inr ⟨s, List.mem_cons_of_mem _ hs, hr⟩
  | case3 u stack visited hmem hnode ih =>
      intro x hx
      rw [dfsAux, if_neg hmem, if_pos hnode] at hx
      rcases ih x hx with h | ⟨s, hs, hr⟩
      · rcases List.mem_cons.mp h with h | h
        · exact Or.inr ⟨u, List.mem_cons_self u stack, h ▸ Relation.ReflTransGen.refl⟩
        · exact Or.inl h
      · rcases List.mem_append.mp hs with hs | hs
        · exact Or.inr ⟨u, List.mem_cons_self u stack, Relation.ReflTransGen.head hs hr⟩
        · exact Or.inr ⟨s, List.mem_cons_of_mem _ hs, hr⟩
  | case4 u stack visited hmem hnode ih =>
      intro x hx
      rw [dfsAux, if_neg hmem, if_neg hnode] at hx
      rcases ih x hx with h | ⟨s, hs, hr⟩
      · exact Or.inl h
      · exact Or.inr ⟨s, List.mem_cons_of_mem _ hs, hr⟩

lemma dfs_closed (g : QGraph) (nbr : Nat → List Nat)
    (hnbr : ∀ u ∈ g.nodes, ∀ w ∈ nbr u, w ∈ g.nodes) :
    ∀ (stack visited : List Nat), (∀ v ∈ visited, v ∈ g.nodes) →
      (∀ v ∈ visited, ∀ w ∈ nbr v, w ∈ visited ∨ w ∈ stack) →
      ∀ v ∈ dfsAux g nbr stack visited, ∀ w ∈ nbr v,
        w ∈ dfsAux g nbr stack visited := by
  intro stack visited
  induction stack, visited using dfsAux.induct g nbr with
  | case1 visited =>
      intro hsub hcl v hv w hw
      rw [dfsAux] at hv ⊢
      rcases hcl v hv w hw with h | h
      · exact h
      · cases h
  | case2 u stack visited hmem ih =>
      intro hsub hcl v hv w hw
      rw [dfsAux, if_pos hmem] at hv ⊢
      refine ih hsub ?_ v hv w hw
      intro a ha b hb
      rcases hcl a ha b hb with h | h
      · exact Or.inl h
      · rcases List.mem_cons.mp h with h | h
        · exact Or.inl (h ▸ hmem)
        · exact Or.inr h
  | case3 u stack visited hmem hnode ih =>
      intro hsub hcl v hv w hw
      rw [dfsAux, if_neg hmem, if_pos hnode] at hv ⊢
      refine ih ?_ ?_ v hv w hw
      · intro a ha
        rcases List.mem_cons.mp ha with h | h
        · exact h ▸ hnode
        · exact hsub a h
      · intro a ha b hb
        rcases List.mem_cons.mp ha with h | h
        · exact Or.inr (List.mem_append_left _ (h ▸ hb))
        · rcases hcl a h b hb with h2 | h2
          · exact Or.inl (List.mem_cons_of_mem _ h2)
          · rcases List.mem_cons.mp h2 with h2 | h2
            · exact Or.inl (h2 ▸ List.mem_cons_self u visited)
            · exact Or.inr (List.mem_append_right _ h2)
  | case4 u stack visited hmem hnode ih =>
      intro hsub hcl v hv w hw
      rw [dfsAux, if_neg hmem, if_neg hnode] at hv ⊢
      refine ih hsub ?_ v hv w hw
      intro a ha b hb
      rcases hcl a ha b hb with h | h
      · exact Or.inl h
      · rcases List.mem_cons.mp h with h | h
        · exact absurd (hnbr a (hsub a ha) b hb) (h ▸ hnode)
        · exact Or.inr h

lemma dfs_complete (g : QGraph) (nbr : Nat → List Nat)
    (hnbr : ∀ u ∈ g.nodes, ∀ w ∈ nbr u, w ∈ g.nodes)
    (stack : List Nat) (s x : Nat) (hs : s ∈ stack) (hsn : s ∈ g.nodes)
    (hr : Reaches nbr s x) : x ∈ dfsAux g nbr stack [] := by
  induction hr with
  | refl => exact dfs_mem_of_stack g nbr stack [] s hs hsn
  | tail hab hbc ih =>
      exact dfs_closed g nbr hnbr stack []
        (fun v hv => absurd hv (List.not_mem_nil v))
        (fun v hv => absurd hv (List.not_mem_nil v)) _ ih _ hbc

lemma dfs_reach_iff (g : QGraph) (nbr : Nat → List Nat)
    (hnbr : ∀ u ∈ g.nodes, ∀ w ∈ nbr u, w ∈ g.nodes)
    (stack : List Nat) (hstack : ∀ y ∈ stack, y ∈ g.nodes) (x : Nat) :
    x ∈ dfsAux g nbr stack [] ↔ ∃ s ∈ stack, Reaches nbr s x := by
  constructor
  · intro hx
    rcases dfs_sound g nbr stack [] x hx with h | h
    · cases h
    · exact h
  · rintro ⟨s, hs, hr⟩
    exact dfs_complete g nbr hnbr stack s x hs (hstack s hs) hr

lemma filterMap_filter_isSome {α β : Type} (f : α → Option β) :
    ∀ l : List α, (l.filter (fun a => (f a).isSome)).filterMap f = l.filterMap f := by
  intro l
  induction l with
  | nil => rfl
  | cons a rest ih =>
      cases hfa : f a with
      | none =>
          rw [List.filter_cons_of_neg (by simp [hfa]), ih,
            List.filterMap_cons_none hfa]
      | some b =>
          rw [List.filter_cons_of_pos (by simp [hfa]),
            List.filterMap_cons_some hfa, ih,
            List.filterMap_cons_some hfa]

lemma nbrF_closed (g : QGraph) (forward : Bool) (hwf : QGraph.WF g) :
    ∀ u ∈ g.nodes, ∀ w ∈ nbrF g forward u, w ∈ g.nodes := by
  cases forward
  · exact hwf.2.2.1
  · exact hwf.2.1

/-- C1: multi-source reachability.  `getDepValues` returns exactly the set
of nodes reachable from the source values' nodes following successor edges
(forward) or predecessor edges (backward); every source value that has a
node in the graph has that node in the returned set; and source values
without a node are skipped silently: the result is unchanged when they are
removed from the argument. -/
theorem getDepValues_spec (g : QGraph) (find : Nat → Option Nat)
    (sources : List Nat) (forward : Bool)
    (hwf : QGraph.WF g)
    (hfind : ∀ v n, find v = some n → n ∈ g.nodes) :
    (∀ x, x ∈ Graph.getDepValues g find sources forward ↔
        ∃ s ∈ sources, ∃ n, find s = some n ∧ Reaches (nbrF g forward) n x) ∧
    (∀ s ∈ sources, ∀ n, find s = some n →
        n ∈ Graph.getDepValues g find sources forward) ∧
    Graph.getDepValues g find sources forward
      = Graph.getDepValues g find
          (sources.filter (fun s => (find s).isSome)) forward := by
  have hnbr := nbrF_closed g forward hwf
  have hstack : ∀ y ∈ sources.filterMap find, y ∈ g.nodes := by
    intro y hy
    rcases List.mem_filterMap.mp hy with ⟨s, _, hfs⟩
    exact hfind s y hfs
  refine ⟨?_, ?_, ?_⟩
  · intro x
    rw [Graph.getDepValues, dfs_reach_iff g _ hnbr _ hstack x]
    constructor
    · rintro ⟨n, hn, hr⟩
      rcases List.mem_filterMap.mp hn with ⟨s, hs, hfs⟩
      exact ⟨s, hs, n, hfs, hr⟩
    · rintro ⟨s, hs, n, hfs, hr⟩
      exact ⟨n, List.mem_filterMap.mpr ⟨s, hs, hfs⟩, hr⟩
  · intro s hs n hfs
    exact dfs_mem_of_stack g _ _ [] n
      (List.mem_filterMap.mpr ⟨s, hs, hfs⟩) (hfind s n hfs)
  · show dfsAux g _ (sources.filterMap find) [] = dfsAux g _ _ []
    rw [filterMap_filter_isSome find sources]

lemma gW_wf : QGraph.WF gW := by
  unfold QGraph.WF
  decide

lemma findW_ok : ∀ v n, findW v = some n → n ∈ gW.nodes := by
  intro v n h
  unfold findW at h
  by_cases h1 : v ≤ 5
  · rw [if_pos h1] at h
    injection h with h2
    subst h2
    show v ∈ [0, 1, 2, 3, 4, 5]
    simp only [List.mem_cons, List.mem_singleton]
    omega
  · rw [if_neg h1] at h
    exact Option.noConfusion h

theorem getDepValues_spec_witness :
    (2 ∈ Graph.getDepValues gW findW [10, 0] true ↔
        ∃ s ∈ [10, 0], ∃ n, findW s = some n ∧ Reaches (nbrF gW true) n 2) ∧
    0 ∈ Graph.getDepValues gW findW [10, 0] true :=
  ⟨(getDepValues_spec gW findW [10, 0] true gW_wf findW_ok).1 2,
    (getDepValues_spec gW findW [10, 0] true gW_wf findW_ok).2.1 0 (by decide) 0 rfl⟩

lemma last_mem {α : Type} : ∀ (l : List α) (a : α), l.getLast? = some a → a ∈ l := by
  intro l
  induction l with
  | nil => intro a h; cases h
  | cons b rest ih =>
      intro a h
      cases hr : rest with
      | nil =>
          rw [hr] at h
          injection h with h2
          exact List.mem_singleton.mpr h2.symm
      | cons c rest2 =>
          rw [hr] at h ih
          rw [List.getLast?_cons_cons] at h
          exact List.mem_cons_of_mem _ (ih a h)

lemma path_concat (nbr : Nat → List Nat) :
    ∀ (l : List Nat) (b c : Nat), IsPathOver nbr l → l.getLast? = some b →
      c ∈ nbr b → IsPathOver nbr (l ++ [c]) := by
  intro l
  induction l with
  | nil => intro b c _ hl _; cases hl
  | cons a rest ih =>
      intro b c hp hl hc
      cases hr : rest with
      | nil =>
          subst hr
          injection hl with h2
          subst h2
          exact ⟨hc, trivial⟩
      | cons d rest2 =>
          subst hr
          obtain ⟨had, hrest⟩ := hp
          rw [List.getLast?_cons_cons] at hl
          exact ⟨had, ih b c hrest hl hc⟩

lemma path_reaches (nbr : Nat → List Nat) :
    ∀ (l : List Nat) (a b : Nat), IsPathOver nbr l → l.head? = some a →
      l.getLast? = some b → Reaches nbr a b := by
  intro l
  induction l with
  | nil => intro a b _ hh _; cases hh
  | cons x rest ih =>
      intro a b hp hh hl
      injection hh with hh
      subst hh
      cases hr : rest with
      | nil =>
          subst hr
          injection hl with hl
          subst hl
          exact Relation.ReflTransGen.refl
      | cons d rest2 =>
          subst hr
          obtain ⟨had, hrest⟩ := hp
          rw [List.getLast?_cons_cons] at hl
          exact Relation.ReflTransGen.head had (ih d b hrest rfl hl)

lemma reaches_path (nbr : Nat → List Nat) (a b : Nat) (h : Reaches nbr a b) :
    ∃ l, IsPathOver nbr l ∧ l.head? = some a ∧ l.getLast? = some b := by
  induction h with
  | refl => exact ⟨[a], trivial, rfl, rfl⟩
  | tail hab hbc ih =>
      rename_i x y
      obtain ⟨l, hp, hh, hl⟩ := ih
      refine ⟨l ++ [y], path_concat nbr l x y hp hl hbc, ?_, List.getLast?_concat _⟩
      cases l with
      | nil => cases hh
      | cons z rest => exact hh

lemma path_split (nbr : Nat → List Nat) :
    ∀ (l1 : List Nat) (x : Nat) (l2 : List Nat),
      IsPathOver nbr (l1 ++ x :: l2) →
      IsPathOver nbr (l1 ++ [x]) ∧ IsPathOver nbr (x :: l2) := by
  intro l1
  induction l1 with
  | nil => intro x l2 h; exact ⟨trivial, h⟩
  | cons a l1 ih =>
      intro x l2 h
      cases hl : l1 with
      | nil =>
          subst hl
          obtain ⟨hax, hrest⟩ := h
          exact ⟨⟨hax, trivial⟩, hrest⟩
      | cons d l1x =>
          subst hl
          obtain ⟨had, hrest⟩ := h
          obtain ⟨h1, h2⟩ := ih x l2 hrest
          exact ⟨⟨had, h1⟩, h2⟩

lemma path_join (nbr : Nat → List Nat) :
    ∀ (l1 : List Nat) (x : Nat) (t : List Nat),
      IsPathOver nbr l1 → l1.getLast? = some x → IsPathOver nbr (x :: t) →
      IsPathOver nbr (l1 ++ t) := by
  intro l1
  induction l1 with
  | nil => intro x t _ hl _; cases hl
  | cons a rest ih =>
      intro x t hp hl hxt
      cases hr : rest with
      | nil =>
          subst hr
          injection hl with hl
          subst hl
          exact hxt
      | cons d rest2 =>
          subst hr
          obtain ⟨had, hrest⟩ := hp
          rw [List.getLast?_cons_cons] at hl
          have hjoin := ih x t hrest hl hxt
          exact ⟨had, hjoin⟩

lemma getLast_append_cons {α : Type} :
    ∀ (l1 : List α) (x : α) (l2 : List α),
      (l1 ++ x :: l2).getLast? = (x :: l2).getLast? := by
  intro l1
  induction l1 with
  | nil => intro x l2; rfl
  | cons a rest ih =>
      intro x l2
      rw [List.cons_append]
      cases hr : rest ++ x :: l2 with
      | nil => exact absurd hr (by simp)
      | cons z zs =>
          rw [List.getLast?_cons_cons, ← hr, ih]

lemma head_append_cons {α : Type} (l1 : List α) (x : α) (l2 l3 : List α) :
    (l1 ++ x :: l2).head? = (l1 ++ x :: l3).head? := by
  cases l1 with
  | nil => rfl
  | cons a rest => rfl

lemma mem_path_iff_reaches (nbr : Nat → List Nat) (s d x : Nat) :
    (∃ l, IsPathOver nbr l ∧ l.head? = some s ∧ l.getLast? = some d ∧ x ∈ l)
      ↔ (Reaches nbr s x ∧ Reaches nbr x d) := by
  constructor
  · rintro ⟨l, hp, hh, hl, hx⟩
    obtain ⟨l1, l2, rfl⟩ := List.append_of_mem hx
    obtain ⟨hp1, hp2⟩ := path_split nbr l1 x l2 hp
    constructor
    · refine path_reaches nbr (l1 ++ [x]) s x hp1 ?_ (List.getLast?_concat _)
      rw [← hh]
      exact head_append_cons l1 x [] l2
    · refine path_reaches nbr (x :: l2) x d hp2 rfl ?_
      rw [← hl, getLast_append_cons]
  · rintro ⟨h1, h2⟩
    obtain ⟨p1, hp1, hh1, hl1⟩ := reaches_path nbr s x h1
    obtain ⟨p2, hp2, hh2, hl2⟩ := reaches_path nbr x d h2
    cases p2 with
    | nil => cases hh2
    | cons z t =>
        injection hh2 with hh2
        subst hh2
        refine ⟨p1 ++ t, path_join nbr p1 z t hp1 hl1 hp2, ?_, ?_, ?_⟩
        · cases p1 with
          | nil => cases hh1
          | cons a rest => exact hh1
        · cases ht : t with
          | nil =>
              subst ht
              rw [List.append_nil]
              have hzd : z = d := by simpa using hl2
              rw [← hzd]
              exact hl1
          | cons w ws =>
              subst ht
              rw [getLast_append_cons]
              rw [List.getLast?_cons_cons] at hl2
              exact hl2
        · exact List.mem_append_left _ (last_mem p1 z hl1)

lemma reaches_closed (g : QGraph) (nbr : Nat → List Nat)
    (hnbr : ∀ u ∈ g.nodes, ∀ w ∈ nbr u, w ∈ g.nodes)
    (s x : Nat) (hs : s ∈ g.nodes) (h : Reaches nbr s x) : x ∈ g.nodes := by
  induction h with
  | refl => exact hs
  | tail hab hbc ih => exact hnbr _ ih _ hbc

lemma reaches_pred_iff_succ (g : QGraph) (hwf : QGraph.WF g) (d x : Nat)
    (hd : d ∈ g.nodes) (hx : x ∈ g.nodes) :
    Reaches g.predOf d x ↔ Reaches g.succOf x d := by
  obtain ⟨hnd, hsucc, hpred, hsym⟩ := hwf
  constructor
  · intro h
    have aux : ∀ y, Reaches g.predOf d y → Reaches g.succOf y d := by
      intro y hy
      induction hy with
      | refl => exact Relation.ReflTransGen.refl
      | tail hab hbc ih =>
          rename_i b c
          have hb : b ∈ g.nodes :=
            reaches_closed g g.predOf hpred d b hd hab
          have hc : c ∈ g.nodes := hpred b hb c hbc
          exact Relation.ReflTransGen.head ((hsym c hc b hb).mpr hbc) ih
    exact aux x h
  · intro h
    have aux : ∀ y, Reaches g.succOf y d → y ∈ g.nodes → Reaches g.predOf d y := by
      intro y hy
      induction hy using Relation.ReflTransGen.head_induction_on with
      | refl => intro _; exact Relation.ReflTransGen.refl
      | head hac hcd ih =>
          rename_i a c
          intro ha
          have hc : c ∈ g.nodes := hsucc a ha c hac
          exact Relation.ReflTransGen.tail (ih hc) ((hsym a ha c hc).mp hac)
    exact aux x h hx

/-- C2: connecting subgraph.  For values src and dst present in the graph,
the node set of `generateSubGraph src dst` is the intersection of the
forward-reachable set of src's node and the backward-reachable set of
dst's node, and this set is exactly the set of nodes lying on some
directed path from src's node to dst's node. -/
theorem generateSubGraph_spec (g : QGraph) (find : Nat → Option Nat)
    (src dst sN dN : Nat)
    (hwf : QGraph.WF g) (hfind : ∀ v n, find v = some n → n ∈ g.nodes)
    (hs : find src = some sN) (hd : find dst = some dN) :
    (∀ x, x ∈ Graph.generateSubGraph g find src dst ↔
        (Reaches g.succOf sN x ∧ Reaches g.predOf dN x)) ∧
    (∀ x, x ∈ Graph.generateSubGraph g find src dst ↔
        ∃ l, IsPathOver g.succOf l ∧ l.head? = some sN ∧
          l.getLast? = some dN ∧ x ∈ l) := by
  have hsN := hfind src sN hs
  have hdN := hfind dst dN hd
  have hsub : Graph.generateSubGraph g find src dst
      = (Graph.dfsVisit g sN).filter
          (fun v => (Graph.dfsVisitBack g dN).contains v) := by
    unfold Graph.generateSubGraph
    rw [hs, hd]
  have hfwd : ∀ x, x ∈ Graph.dfsVisit g sN ↔ Reaches g.succOf sN x := by
    intro x
    unfold Graph.dfsVisit
    rw [dfs_reach_iff g g.succOf hwf.2.1 [sN]
      (by intro y hy; rw [List.mem_singleton] at hy; rw [hy]; exact hsN) x]
    constructor
    · rintro ⟨s2, hs2, hr⟩
      rw [List.mem_singleton] at hs2
      exact hs2 ▸ hr
    · intro hr
      exact ⟨sN, List.mem_singleton.mpr rfl, hr⟩
  have hbwd : ∀ x, x ∈ Graph.dfsVisitBack g dN ↔ Reaches g.predOf dN x := by
    intro x
    unfold Graph.dfsVisitBack
    rw [dfs_reach_iff g g.predOf hwf.2.2.1 [dN]
      (by intro y hy; rw [List.mem_singleton] at hy; rw [hy]; exact hdN) x]
    constructor
    · rintro ⟨s2, hs2, hr⟩
      rw [List.mem_singleton] at hs2
      exact hs2 ▸ hr
    · intro hr
      exact ⟨dN, List.mem_singleton.mpr rfl, hr⟩
  have hmem : ∀ x, x ∈ Graph.generateSubGraph g find src dst ↔
      (Reaches g.succOf sN x ∧ Reaches g.predOf dN x) := by
    intro x
    rw [hsub, List.mem_filter]
    constructor
    · rintro ⟨h1, h2⟩
      refine ⟨(hfwd x).mp h1, (hbwd x).mp ?_⟩
      exact List.mem_of_elem_eq_true h2
    · rintro ⟨h1, h2⟩
      exact ⟨(hfwd x).mpr h1, List.elem_eq_true_of_mem ((hbwd x).mpr h2)⟩
  refine ⟨hmem, ?_⟩
  intro x
  constructor
  · intro hx
    obtain ⟨h1, h2⟩ := (hmem x).mp hx
    have hxn := reaches_closed g g.succOf hwf.2.1 sN x hsN h1
    exact (mem_path_iff_reaches g.succOf sN dN x).mpr
      ⟨h1, (reaches_pred_iff_succ g hwf dN x hdN hxn).mp h2⟩
  · intro hl
    obtain ⟨h1, h2⟩ := (mem_path_iff_reaches g.succOf sN dN x).mp hl
    have hxn := reaches_closed g g.succOf hwf.2.1 sN x hsN h1
    exact (hmem x).mpr
      ⟨h1, (reaches_pred_iff_succ g hwf dN x hdN hxn).mpr h2⟩

theorem generateSubGraph_spec_witness :
    (1 ∈ Graph.generateSubGraph gW findW 0 2 ↔
        (Reaches gW.succOf 0 1 ∧ Reaches gW.predOf 2 1)) ∧
    (1 ∈ Graph.generateSubGraph gW findW 0 2 ↔
        ∃ l, IsPathOver gW.succOf l ∧ l.head? = some 0 ∧
          l.getLast? = some 2 ∧ 1 ∈ l) :=
  ⟨(generateSubGraph_spec gW findW 0 2 0 2 gW_wf findW_ok rfl rfl).1 1,
   (generateSubGraph_spec gW findW 0 2 0 2 gW_wf findW_ok rfl rfl).2 1⟩

lemma reaches_iff_reachN (nbr : Nat → List Nat) (s v : Nat) :
    Reaches nbr s v ↔ ∃ k, ReachN nbr s k v := by
  constructor
  · intro h
    induction h with
    | refl => exact ⟨0, ReachN.refl⟩
    | tail hab hbc ih =>
        obtain ⟨k, hk⟩ := ih
        exact ⟨k + 1, ReachN.tail hk hbc⟩
  · rintro ⟨k, hk⟩
    induction hk with
    | refl => exact Relation.ReflTransGen.refl
    | tail hk hbc ih => exact Relation.ReflTransGen.tail ih hbc

lemma reachN_mem (g : QGraph) (nbr : Nat → List Nat)
    (hnbr : ∀ u ∈ g.nodes, ∀ w ∈ nbr u, w ∈ g.nodes)
    (s : Nat) (hs : s ∈ g.nodes) :
    ∀ {k v : Nat}, ReachN nbr s k v → v ∈ g.nodes := by
  intro k v h
  induction h with
  | refl => exact hs
  | tail hk hbc ih => exact hnbr _ ih _ hbc

lemma distIs_exists (nbr : Nat → List Nat) (s v : Nat) :
    ∀ j, ReachN nbr s j v → ∃ k, k ≤ j ∧ distIs nbr s v k := by
  intro j
  induction j using Nat.strong_induction_on with
  | _ j ih =>
      intro hj
      by_cases hmin : ∀ i, i < j → ¬ ReachN nbr s i v
      · exact ⟨j, le_refl j, hj, hmin⟩
      · push_neg at hmin
        obtain ⟨i, hij, hi⟩ := hmin
        obtain ⟨k, hk1, hk2⟩ := ih i hij hi
        exact ⟨k, le_of_lt (lt_of_le_of_lt hk1 hij), hk2⟩

lemma distIs_unique (nbr : Nat → List Nat) (s v k k' : Nat)
    (h1 : distIs nbr s v k) (h2 : distIs nbr s v k') : k = k' := by
  by_contra hne
  rcases Nat.lt_or_ge k k' with h | h
  · exact h2.2 k h h1.1
  · rcases Nat.lt_or_ge k' k with h3 | h3
    · exact h1.2 k' h3 h2.1
    · omega

lemma distIs_zero (nbr : Nat → List Nat) (s : Nat) : distIs nbr s s 0 :=
  ⟨ReachN.refl, fun j hj => absurd hj (Nat.not_lt_zero j)⟩

lemma reachN_zero_eq (nbr : Nat → List Nat) (s v : Nat) :
    ReachN nbr s 0 v → v = s := by
  intro h
  cases h
  rfl

lemma reachN_succ_inv (nbr : Nat → List Nat) (s v k : Nat) :
    ReachN nbr s (k + 1) v → ∃ u, ReachN nbr s k u ∧ v ∈ nbr u := by
  intro h
  cases h with
  | tail h1 h2 => exact ⟨_, h1, h2⟩

lemma gapFree (nbr : Nat → List Nat) (s v m : Nat) (h : distIs nbr s v (m + 1)) :
    ∃ u, distIs nbr s u m ∧ v ∈ nbr u := by
  obtain ⟨u, hu, hv⟩ := reachN_succ_inv nbr s v m h.1
  obtain ⟨k, hk1, hk2⟩ := distIs_exists nbr s u m hu
  rcases Nat.lt_or_ge k m with hlt | hge
  · exact absurd (ReachN.tail hk2.1 hv) (h.2 (k + 1) (by omega))
  · have hkm : k = m := le_antisymm hk1 hge
    subst hkm
    exact ⟨u, hk2, hv⟩

lemma distChain (g : QGraph) (nbr : Nat → List Nat)
    (hnbr : ∀ u ∈ g.nodes, ∀ w ∈ nbr u, w ∈ g.nodes)
    (s : Nat) (hs : s ∈ g.nodes) :
    ∀ m v, distIs nbr s v m →
      ∃ l : List Nat, l.length = m + 1 ∧ l.Nodup ∧ (∀ x ∈ l, x ∈ g.nodes) ∧
        (∀ x ∈ l, ∃ j, j ≤ m ∧ distIs nbr s x j) := by
  intro m
  induction m with
  | zero =>
      intro v h
      refine ⟨[v], rfl, List.nodup_singleton v, ?_, ?_⟩
      · intro x hx
        rw [List.mem_singleton] at hx
        subst hx
        exact reachN_mem g nbr hnbr s hs h.1
      · intro x hx
        rw [List.mem_singleton] at hx
        subst hx
        exact ⟨0, le_refl 0, h⟩
  | succ m ih =>
      intro v h
      obtain ⟨u, hu, hv⟩ := gapFree nbr s v m h
      obtain ⟨l, hlen, hnd2, hmemN, hdists⟩ := ih u hu
      refine ⟨v :: l, by simp [hlen], ?_, ?_, ?_⟩
      · rw [List.nodup_cons]
        refine ⟨?_, hnd2⟩
        intro hvl
        obtain ⟨j, hj, hdj⟩ := hdists v hvl
        have := distIs_unique nbr s v (m + 1) j h hdj
        omega
      · intro x hx
        rcases List.mem_cons.mp hx with hx | hx
        · subst hx
          exact reachN_mem g nbr hnbr s hs h.1
        · exact hmemN x hx
      · intro x hx
        rcases List.mem_cons.mp hx with hx | hx
        · subst hx
          exact ⟨m + 1, le_refl _, h⟩
        · obtain ⟨j, hj, hdj⟩ := hdists x hx
          exact ⟨j, by omega, hdj⟩

lemma nodup_subset_length {α : Type} [DecidableEq α] (l L : List α)
    (hnd : l.Nodup) (hsub : ∀ x ∈ l, x ∈ L) : l.length ≤ L.length := by
  have h1 : l.toFinset.card = l.length := List.toFinset_card_of_nodup hnd
  have h2 : l.toFinset ⊆ L.toFinset := by
    intro x hx
    rw [List.mem_toFinset] at hx ⊢
    exact hsub x hx
  calc l.length = l.toFinset.card := h1.symm
    _ ≤ L.toFinset.card := Finset.card_le_card h2
    _ ≤ L.length := List.toFinset_card_le L

lemma distIs_bound (g : QGraph) (nbr : Nat → List Nat)
    (hnbr : ∀ u ∈ g.nodes, ∀ w ∈ nbr u, w ∈ g.nodes)
    (s : Nat) (hs : s ∈ g.nodes) (m v : Nat) (h : distIs nbr s v m) :
    m < g.nodes.length := by
  obtain ⟨l, hlen, hnd2, hmemN, _⟩ := distChain g nbr hnbr s hs m v h
  have := nodup_subset_length l g.nodes hnd2 hmemN
  omega

lemma pruneLevel_subset :
    ∀ (l : List (List Nat)) (vis : List Nat) (p : List Nat),
      p ∈ pruneLevel vis l → p ∈ l ∧ entryNode p ∉ vis := by
  intro l
  induction l with
  | nil => intro vis p hp; cases hp
  | cons q rest ih =>
      intro vis p hp
      by_cases hq : entryNode q ∈ vis
      · rw [pruneLevel, if_pos hq] at hp
        obtain ⟨h1, h2⟩ := ih vis p hp
        exact ⟨List.mem_cons_of_mem _ h1, h2⟩
      · rw [pruneLevel, if_neg hq] at hp
        rcases List.mem_cons.mp hp with hp | hp
        · subst hp
          exact ⟨List.mem_cons_self _ _, hq⟩
        · obtain ⟨h1, h2⟩ := ih _ p hp
          exact ⟨List.mem_cons_of_mem _ h1,
            fun hc => h2 (List.mem_cons_of_mem _ hc)⟩

lemma pruneLevel_nodes :
    ∀ (l : List (List Nat)) (vis : List Nat) (v : Nat),
      v ∈ (pruneLevel vis l).map entryNode ↔
        (v ∈ l.map entryNode ∧ v ∉ vis) := by
  intro l
  induction l with
  | nil => intro vis v; rw [pruneLevel]; simp
  | cons q rest ih =>
      intro vis v
      by_cases hq : entryNode q ∈ vis
      · rw [pruneLevel, if_pos hq, List.map_cons, ih]
        constructor
        · rintro ⟨h1, h2⟩
          exact ⟨List.mem_cons_of_mem _ h1, h2⟩
        · rintro ⟨h1, h2⟩
          rcases List.mem_cons.mp h1 with h1 | h1
          · exact absurd (h1 ▸ hq) h2
          · exact ⟨h1, h2⟩
      · rw [pruneLevel, if_neg hq, List.map_cons, List.map_cons]
        constructor
        · intro h
          rcases List.mem_cons.mp h with h | h
          · subst h
            exact ⟨List.mem_cons_self _ _, hq⟩
          · obtain ⟨h1, h2⟩ := (ih _ v).mp h
            exact ⟨List.mem_cons_of_mem _ h1,
              fun hc => h2 (List.mem_cons_of_mem _ hc)⟩
        · rintro ⟨h1, h2⟩
          by_cases hv : v = entryNode q
          · exact hv ▸ List.mem_cons_self _ _
          · rcases List.mem_cons.mp h1 with h1 | h1
            · exact absurd h1 hv
            · refine List.mem_cons_of_mem _ ((ih _ v).mpr ⟨h1, ?_⟩)
              intro hc
              rcases List.mem_cons.mp hc with hc | hc
              · exact hv hc
              · exact h2 hc

lemma pruneLevel_nodup :
    ∀ (l : List (List Nat)) (vis : List Nat),
      ((pruneLevel vis l).map entryNode).Nodup ∧
        ∀ v ∈ (pruneLevel vis l).map entryNode, v ∉ vis := by
  intro l
  induction l with
  | nil =>
      intro vis
      refine ⟨by rw [pruneLevel]; exact List.nodup_nil, ?_⟩
      intro v hv
      rw [pruneLevel] at hv
      cases hv
  | cons q rest ih =>
      intro vis
      by_cases hq : entryNode q ∈ vis
      · rw [pruneLevel, if_pos hq]
        exact ih vis
      · rw [pruneLevel, if_neg hq, List.map_cons]
        obtain ⟨ihn, ihv⟩ := ih (entryNode q :: vis)
        refine ⟨List.nodup_cons.mpr ⟨?_, ihn⟩, ?_⟩
        · intro hc
          exact ihv _ hc (List.mem_cons_self _ _)
        · intro v hv
          rcases List.mem_cons.mp hv with hv | hv
          · exact hv ▸ hq
          · exact fun hc => ihv v hv (List.mem_cons_of_mem _ hc)

lemma bfs_inv (g : QGraph) (nbr : Nat → List Nat)
    (hnbr : ∀ u ∈ g.nodes, ∀ w ∈ nbr u, w ∈ g.nodes)
    (start : Nat) (hstart : start ∈ g.nodes) :
    ∀ k : Nat,
      (∀ p ∈ (bfsIter nbr ⟨[[start]], [[start]]⟩ k).frontier,
          IsRevPathOver nbr p ∧ p.getLast? = some start ∧ p.length = k + 1 ∧
          (∀ x ∈ p, x ∈ g.nodes) ∧ distIs nbr start (entryNode p) k) ∧
      (∀ v, distIs nbr start v k →
          ∃ p ∈ (bfsIter nbr ⟨[[start]], [[start]]⟩ k).frontier,
            entryNode p = v) ∧
      ((bfsIter nbr ⟨[[start]], [[start]]⟩ k).visited.map entryNode).Nodup ∧
      (∀ p ∈ (bfsIter nbr ⟨[[start]], [[start]]⟩ k).visited,
          IsRevPathOver nbr p ∧ p.getLast? = some start ∧
          (∀ x ∈ p, x ∈ g.nodes) ∧
          ∃ j, j ≤ k ∧ p.length = j + 1 ∧ distIs nbr start (entryNode p) j) ∧
      (∀ v j, j ≤ k → distIs nbr start v j →
          ∃ p ∈ (bfsIter nbr ⟨[[start]], [[start]]⟩ k).visited,
            entryNode p = v) := by
  intro k
  induction k with
  | zero =>
      refine ⟨?_, ?_, ?_, ?_, ?_⟩
      · intro p hp
        rw [show (bfsIter nbr ⟨[[start]], [[start]]⟩ 0).frontier = [[start]] from rfl,
          List.mem_singleton] at hp
        subst hp
        exact ⟨trivial, rfl, rfl,
          fun x hx => (List.mem_singleton.mp hx) ▸ hstart, distIs_zero nbr start⟩
      · intro v hv
        have hvs : v = start := reachN_zero_eq nbr start v hv.1
        subst hvs
        exact ⟨[v], List.mem_singleton.mpr rfl, rfl⟩
      · exact List.nodup_singleton _
      · intro p hp
        rw [show (bfsIter nbr ⟨[[start]], [[start]]⟩ 0).visited = [[start]] from rfl,
          List.mem_singleton] at hp
        subst hp
        exact ⟨trivial, rfl, fun x hx => (List.mem_singleton.mp hx) ▸ hstart,
          0, le_refl 0, rfl, distIs_zero nbr start⟩
      · intro v j hj hv
        have hj0 : j = 0 := Nat.le_zero.mp hj
        subst hj0
        have hvs : v = start := reachN_zero_eq nbr start v hv.1
        subst hvs
        exact ⟨[v], List.mem_singleton.mpr rfl, rfl⟩
  | succ k ihk =>
      obtain ⟨hA, hB, hC, hD, hE⟩ := ihk
      have hfr : (bfsIter nbr ⟨[[start]], [[start]]⟩ (k + 1)).frontier
          = pruneLevel
              ((bfsIter nbr ⟨[[start]], [[start]]⟩ k).visited.map entryNode)
              (expandLevel nbr (bfsIter nbr ⟨[[start]], [[start]]⟩ k).frontier) := rfl
      have hvis : (bfsIter nbr ⟨[[start]], [[start]]⟩ (k + 1)).visited
          = (bfsIter nbr ⟨[[start]], [[start]]⟩ k).visited
              ++ (bfsIter nbr ⟨[[start]], [[start]]⟩ (k + 1)).frontier := rfl
      have hexp : ∀ p2, p2 ∈ expandLevel nbr
            (bfsIter nbr ⟨[[start]], [[start]]⟩ k).frontier ↔
          ∃ p ∈ (bfsIter nbr ⟨[[start]], [[start]]⟩ k).frontier,
            ∃ w ∈ nbr (entryNode p), p2 = w :: p := by
        intro p2
        unfold expandLevel
        rw [List.mem_flatMap]
        constructor
        · rintro ⟨p, hp, hmem⟩
          rcases List.mem_map.mp hmem with ⟨w, hw, hew⟩
          exact ⟨p, hp, w, hw, hew.symm⟩
        · rintro ⟨p, hp, w, hw, rfl⟩
          exact ⟨p, hp, List.mem_map_of_mem _ hw⟩
      have hA2 : ∀ p2 ∈ (bfsIter nbr ⟨[[start]], [[start]]⟩ (k + 1)).frontier,
          IsRevPathOver nbr p2 ∧ p2.getLast? = some start ∧
          p2.length = k + 1 + 1 ∧ (∀ x ∈ p2, x ∈ g.nodes) ∧
          distIs nbr start (entryNode p2) (k + 1) := by
        intro p2 hp2
        rw [hfr] at hp2
        obtain ⟨hin, hnv⟩ := pruneLevel_subset _ _ p2 hp2
        obtain ⟨p, hp, w, hw, rfl⟩ := (hexp p2).mp hin
        obtain ⟨hrp, hlast, hlen, hmem, hdist⟩ := hA p hp
        obtain ⟨e, rest, rfl⟩ : ∃ e rest, p = e :: rest := by
          cases p with
          | nil => exact absurd hlen (by simp)
          | cons e rest => exact ⟨e, rest, rfl⟩
        refine ⟨⟨hw, hrp⟩, ?_, ?_, ?_, ?_⟩
        · rw [List.getLast?_cons_cons]
          exact hlast
        · rw [List.length_cons, hlen]
        · intro x hx
          rcases List.mem_cons.mp hx with hx | hx
          · subst hx
            exact hnbr e (hmem e (List.mem_cons_self _ _)) _ hw
          · exact hmem x hx
        · constructor
          · exact ReachN.tail hdist.1 hw
          · intro j hj hr
            obtain ⟨j2, hj2le, hdj2⟩ := distIs_exists nbr start w j hr
            have hj2k : j2 ≤ k := by omega
            obtain ⟨q, hq, hqe⟩ := hE w j2 hj2k hdj2
            have hqm := List.mem_map_of_mem entryNode hq
            rw [hqe] at hqm
            exact hnv hqm
      have hB2 : ∀ v, distIs nbr start v (k + 1) →
          ∃ p2 ∈ (bfsIter nbr ⟨[[start]], [[start]]⟩ (k + 1)).frontier,
            entryNode p2 = v := by
        intro v hv
        obtain ⟨u, hu, hvu⟩ := gapFree nbr start v k hv
        obtain ⟨p, hp, hpe⟩ := hB u hu
        have hin : (v :: p) ∈ expandLevel nbr
            (bfsIter nbr ⟨[[start]], [[start]]⟩ k).frontier :=
          (hexp _).mpr ⟨p, hp, v, hpe ▸ hvu, rfl⟩
        have hnv : v ∉ (bfsIter nbr ⟨[[start]], [[start]]⟩ k).visited.map
            entryNode := by
          intro hc
          rcases List.mem_map.mp hc with ⟨q, hq, hqe⟩
          obtain ⟨_, _, _, j, hjk, _, hdj⟩ := hD q hq
          rw [hqe] at hdj
          have := distIs_unique nbr start v (k + 1) j hv hdj
          omega
        have hvm : v ∈ ((bfsIter nbr ⟨[[start]], [[start]]⟩ (k + 1)).frontier).map
            entryNode := by
          rw [hfr]
          refine (pruneLevel_nodes _ _ v).mpr ⟨?_, hnv⟩
          exact List.mem_map_of_mem entryNode hin
        rcases List.mem_map.mp hvm with ⟨p2, hp2, hp2e⟩
        exact ⟨p2, hp2, hp2e⟩
      refine ⟨hA2, hB2, ?_, ?_, ?_⟩
      · rw [hvis, hfr, List.map_append]
        rw [List.nodup_append]
        obtain ⟨hpn, hpv⟩ := pruneLevel_nodup
          (expandLevel nbr (bfsIter nbr ⟨[[start]], [[start]]⟩ k).frontier)
          ((bfsIter nbr ⟨[[start]], [[start]]⟩ k).visited.map entryNode)
        exact ⟨hC, hpn, fun a ha hb => hpv a hb ha⟩
      · intro p hp
        rw [hvis] at hp
        rcases List.mem_append.mp hp with hp | hp
        · obtain ⟨h1, h2, h3, j, hjk, h4, h5⟩ := hD p hp
          exact ⟨h1, h2, h3, j, by omega, h4, h5⟩
        · obtain ⟨h1, h2, h3, h4, h5⟩ := hA2 p hp
          exact ⟨h1, h2, h4, k + 1, le_refl _, h3, h5⟩
      · intro v j hj hv
        rcases Nat.lt_or_ge j (k + 1) with hjk | hjk
        · obtain ⟨p, hp, hpe⟩ := hE v j (by omega) hv
          refine ⟨p, ?_, hpe⟩
          rw [hvis]
          exact List.mem_append_left _ hp
        · have hjeq : j = k + 1 := by omega
          subst hjeq
          obtain ⟨p2, hp2, hp2e⟩ := hB2 v hv
          refine ⟨p2, ?_, hp2e⟩
          rw [hvis]
          exact List.mem_append_right _ hp2

lemma find?_append_some {α : Type} (p : α → Bool) :
    ∀ (l1 l2 : List α) (a : α), l1.find? p = some a →
      (l1 ++ l2).find? p = some a := by
  intro l1
  induction l1 with
  | nil => intro l2 a h; cases h
  | cons x rest ih =>
      intro l2 a h
      cases hx : p x
      · rw [List.find?_cons_of_neg _ (by simp [hx])] at h
        rw [List.cons_append, List.find?_cons_of_neg _ (by simp [hx])]
        exact ih l2 a h
      · rw [List.find?_cons_of_pos _ hx] at h
        rw [List.cons_append, List.find?_cons_of_pos _ hx]
        exact h

lemma find?_append_none {α : Type} (p : α → Bool) :
    ∀ (l1 l2 : List α), l1.find? p = none →
      (l1 ++ l2).find? p = l2.find? p := by
  intro l1
  induction l1 with
  | nil => intro l2 _; rfl
  | cons x rest ih =>
      intro l2 h
      cases hx : p x
      · rw [List.find?_cons_of_neg _ (by simp [hx])] at h
        rw [List.cons_append, List.find?_cons_of_neg _ (by simp [hx])]
        exact ih l2 h
      · rw [List.find?_cons_of_pos _ hx] at h
        cases h

lemma exists_min_of (P : Nat → Prop) :
    ∀ j, P j → ∃ k, k ≤ j ∧ P k ∧ ∀ i, i < k → ¬ P i := by
  intro j
  induction j using Nat.strong_induction_on with
  | _ j ih =>
      intro hj
      by_cases hmin : ∀ i, i < j → ¬ P i
      · exact ⟨j, le_refl j, hj, hmin⟩
      · push_neg at hmin
        obtain ⟨i, hij, hi⟩ := hmin
        obtain ⟨k, h1, h2, h3⟩ := ih i hij hi
        exact ⟨k, by omega, h2, h3⟩

lemma pathCost_false (g : QGraph) (p : List Nat) :
    pathCost g false p = p.length - 1 := by
  unfold pathCost
  have hpred : (fun u => !(false && g.isMem u)) = fun _ : Nat => true := by
    funext u
    simp
  rw [hpred]
  rw [List.countP_true, List.length_drop]

lemma bfs_find_from (g : QGraph) (nbr : Nat → List Nat)
    (hnbr : ∀ u ∈ g.nodes, ∀ w ∈ nbr u, w ∈ g.nodes)
    (start : Nat) (hstart : start ∈ g.nodes) (cand : List Nat) (kmin : Nat)
    (hex : ∃ c ∈ cand, distIs nbr start c kmin)
    (hmin : ∀ i, i < kmin → ¬ ∃ c ∈ cand, distIs nbr start c i) :
    ∀ k, kmin ≤ k →
      ∃ p, ((bfsIter nbr ⟨[[start]], [[start]]⟩ k).visited.find?
            (fun q => cand.contains (entryNode q))) = some p ∧
        p ∈ (bfsIter nbr ⟨[[start]], [[start]]⟩ kmin).frontier ∧
        cand.contains (entryNode p) = true := by
  intro k
  induction k with
  | zero =>
      intro hk
      have hk0 : kmin = 0 := Nat.le_zero.mp hk
      subst hk0
      obtain ⟨c, hc, hdc⟩ := hex
      have hcs : c = start := reachN_zero_eq nbr start c hdc.1
      rw [hcs] at hc
      have hpos : (fun q => cand.contains (entryNode q)) [start] = true :=
        List.elem_eq_true_of_mem hc
      refine ⟨[start], ?_, List.mem_singleton.mpr rfl, List.elem_eq_true_of_mem hc⟩
      show List.find? (fun q => cand.contains (entryNode q)) [[start]] = some [start]
      exact List.find?_cons_of_pos _ hpos
  | succ k ih =>
      intro hk
      by_cases hkk : kmin ≤ k
      · obtain ⟨p, hf, hp, hpc⟩ := ih hkk
        refine ⟨p, ?_, hp, hpc⟩
        rw [show (bfsIter nbr ⟨[[start]], [[start]]⟩ (k + 1)).visited
            = (bfsIter nbr ⟨[[start]], [[start]]⟩ k).visited
              ++ (bfsIter nbr ⟨[[start]], [[start]]⟩ (k + 1)).frontier from rfl]
        exact find?_append_some _ _ _ p hf
      · have hkeq : kmin = k + 1 := by omega
        subst hkeq
        have hnone : ((bfsIter nbr ⟨[[start]], [[start]]⟩ k).visited.find?
            (fun q => cand.contains (entryNode q))) = none := by
          rw [List.find?_eq_none]
          intro q hq hpred
          obtain ⟨_, _, _, j, hjk, _, hdj⟩ :=
            (bfs_inv g nbr hnbr start hstart k).2.2.2.1 q hq
          exact hmin j (by omega)
            ⟨entryNode q, List.mem_of_elem_eq_true hpred, hdj⟩
        obtain ⟨c, hc, hdc⟩ := hex
        obtain ⟨p, hp, hpe⟩ :=
          (bfs_inv g nbr hnbr start hstart (k + 1)).2.1 c hdc
        have hfs : ∃ p2, ((bfsIter nbr ⟨[[start]], [[start]]⟩ (k + 1)).frontier.find?
            (fun q => cand.contains (entryNode q))) = some p2 := by
          cases hfr : ((bfsIter nbr ⟨[[start]], [[start]]⟩ (k + 1)).frontier.find?
              (fun q => cand.contains (entryNode q))) with
          | none =>
              rw [List.find?_eq_none] at hfr
              exact absurd (by rw [hpe]; exact List.elem_eq_true_of_mem hc)
                (hfr p hp)
          | some p2 => exact ⟨p2, rfl⟩
        obtain ⟨p2, hf2⟩ := hfs
        have hp2c := List.find?_some hf2
        refine ⟨p2, ?_, List.mem_of_find?_eq_some hf2, hp2c⟩
        rw [show (bfsIter nbr ⟨[[start]], [[start]]⟩ (k + 1)).visited
            = (bfsIter nbr ⟨[[start]], [[start]]⟩ k).visited
              ++ (bfsIter nbr ⟨[[start]], [[start]]⟩ (k + 1)).frontier from rfl]
        rw [find?_append_none _ _ _ hnone]
        exact hf2

/-- C3: nearest dependency.  With the sink present in the graph: if no
candidate source node is backward-reachable from the sink's node the
query returns the sentinel `(none, -1)`; otherwise it returns a candidate
node at minimum backward edge-count distance, together with the hop count
of its discovery path — which equals that minimum distance when
`skipMemoryNodes` is off, and counts only the hops leaving non-Memory
nodes when it is on (the traversal still passes through Memory nodes,
whose hop is free). -/
theorem getNearestDependency_spec (g : QGraph) (find : Nat → Option Nat)
    (sink : Nat) (sources : List Nat) (skip : Bool) (sN : Nat)
    (hwf : QGraph.WF g) (hfind : ∀ v n, find v = some n → n ∈ g.nodes)
    (hsink : find sink = some sN) :
    ((¬ ∃ c ∈ sources.filterMap find, Reaches g.predOf sN c) →
      Graph.getNearestDependency g find sink sources skip = (none, -1)) ∧
    ((∃ c ∈ sources.filterMap find, Reaches g.predOf sN c) →
      ∃ n k p, Graph.getNearestDependency g find sink sources skip
          = (some n, (pathCost g skip p : Int)) ∧
        n ∈ sources.filterMap find ∧
        distIs g.predOf sN n k ∧
        (∀ c ∈ sources.filterMap find, ∀ j, distIs g.predOf sN c j → k ≤ j) ∧
        IsRevPathOver g.predOf p ∧ entryNode p = n ∧ p.getLast? = some sN ∧
        p.length = k + 1 ∧
        (skip = false → (pathCost g skip p : Int) = (k : Int))) := by
  have hpredcl := hwf.2.2.1
  have hsN : sN ∈ g.nodes := hfind sink sN hsink
  have heq : Graph.getNearestDependency g find sink sources skip
      = match (bfsIter g.predOf ⟨[[sN]], [[sN]]⟩ g.nodes.length).visited.find?
            (fun p => (sources.filterMap find).contains (entryNode p)) with
        | none => (none, -1)
        | some p => (some (entryNode p), (pathCost g skip p : Int)) := by
    unfold Graph.getNearestDependency bfsFrom
    rw [hsink]
  constructor
  · intro hno
    have hnone : ((bfsIter g.predOf ⟨[[sN]], [[sN]]⟩ g.nodes.length).visited.find?
        (fun p => (sources.filterMap find).contains (entryNode p))) = none := by
      rw [List.find?_eq_none]
      intro q hq hpred
      obtain ⟨_, _, _, j, _, _, hdj⟩ :=
        (bfs_inv g g.predOf hpredcl sN hsN g.nodes.length).2.2.2.1 q hq
      exact hno ⟨entryNode q, List.mem_of_elem_eq_true hpred,
        (reaches_iff_reachN g.predOf sN (entryNode q)).mpr ⟨j, hdj.1⟩⟩
    rw [heq, hnone]
  · intro hreach
    obtain ⟨c0, hc0, hr0⟩ := hreach
    obtain ⟨j0, hj0⟩ := (reaches_iff_reachN g.predOf sN c0).mp hr0
    obtain ⟨j1, _, hdj1⟩ := distIs_exists g.predOf sN c0 j0 hj0
    obtain ⟨kmin, _, hPk, hPmin⟩ :=
      exists_min_of (fun j => ∃ c ∈ sources.filterMap find,
        distIs g.predOf sN c j) j1 ⟨c0, hc0, hdj1⟩
    obtain ⟨c1, hc1, hdc1⟩ := hPk
    have hkb : kmin < g.nodes.length :=
      distIs_bound g g.predOf hpredcl sN hsN kmin c1 hdc1
    obtain ⟨p, hf, hpfr, hpc⟩ :=
      bfs_find_from g g.predOf hpredcl sN hsN (sources.filterMap find) kmin
        ⟨c1, hc1, hdc1⟩ hPmin g.nodes.length (by omega)
    obtain ⟨hrp, hlast, hlen, hmem2, hdist⟩ :=
      (bfs_inv g g.predOf hpredcl sN hsN kmin).1 p hpfr
    refine ⟨entryNode p, kmin, p, ?_, List.mem_of_elem_eq_true hpc, hdist,
      ?_, hrp, rfl, hlast, hlen, ?_⟩
    · rw [heq, hf]
    · intro c hcc j hdj
      by_cases hjk : j < kmin
      · exact absurd ⟨c, hcc, hdj⟩ (hPmin j hjk)
      · omega
    · intro hskip
      subst hskip
      rw [pathCost_false, hlen]
      simp

theorem getNearestDependency_spec_witness :
    ∃ n k p, Graph.getNearestDependency gW findW 0 [1] true
        = (some n, (pathCost gW true p : Int)) ∧
      n ∈ [1].filterMap findW ∧
      distIs gW.predOf 0 n k ∧
      (∀ c ∈ [1].filterMap findW, ∀ j, distIs gW.predOf 0 c j → k ≤ j) ∧
      IsRevPathOver gW.predOf p ∧ entryNode p = n ∧ p.getLast? = some 0 ∧
      p.length = k + 1 ∧
      (true = false → (pathCost gW true p : Int) = (k : Int)) :=
  (getNearestDependency_spec gW findW 0 [1] true 0 gW_wf findW_ok rfl).2
    ⟨1, by decide, by
      have h1 : (2 : Nat) ∈ gW.predOf 0 := by decide
      have h2 : (1 : Nat) ∈ gW.predOf 2 := by decide
      exact Relation.ReflTransGen.head h1
        (Relation.ReflTransGen.head h2 Relation.ReflTransGen.refl)⟩

lemma lookupDep_eq (n : Nat) (p : List Nat) :
    ∀ r : List (Nat × List Nat), (n, p) ∈ r →
      (∀ e ∈ r, e.1 = n → e.2 = p) → lookupDep r n = some p := by
  intro r
  induction r with
  | nil => intro hmem _; cases hmem
  | cons e rest ih =>
      intro hmem huniq
      by_cases he : e.1 = n
      · have hep : e.2 = p := huniq e (List.mem_cons_self _ _) he
        unfold lookupDep
        rw [List.find?_cons_of_pos _ (by simp [he])]
        show some e.2 = some p
        rw [hep]
      · have hmem2 : (n, p) ∈ rest := by
          rcases List.mem_cons.mp hmem with h | h
          · exact absurd (by rw [← h]) he
          · exact h
        have := ih hmem2 (fun e2 he2 => huniq e2 (List.mem_cons_of_mem _ he2))
        unfold lookupDep at this ⊢
        rw [List.find?_cons_of_neg _ (by simp [he])]
        exact this

lemma lookupDep_none (n : Nat) :
    ∀ r : List (Nat × List Nat), (∀ e ∈ r, e.1 ≠ n) →
      lookupDep r n = none := by
  intro r hr
  unfold lookupDep
  rw [List.find?_eq_none.mpr]
  · rfl
  · intro e he
    simp [hr e he]

lemma revPath_pred_to_succ (g : QGraph) (hwf : QGraph.WF g) :
    ∀ p : List Nat, IsRevPathOver g.predOf p → (∀ x ∈ p, x ∈ g.nodes) →
      IsPathOver g.succOf p := by
  intro p
  induction p with
  | nil => intro h _; cases h
  | cons a rest ih =>
      intro h hmem
      cases hr : rest with
      | nil => exact trivial
      | cons b rest2 =>
          subst hr
          obtain ⟨hab, hrest⟩ := h
          have ha : a ∈ g.nodes := hmem a (List.mem_cons_self _ _)
          have hb : b ∈ g.nodes :=
            hmem b (List.mem_cons_of_mem _ (List.mem_cons_self _ _))
          refine ⟨(hwf.2.2.2 a ha b hb).mpr hab, ?_⟩
          exact ih hrest (fun x hx => hmem x (List.mem_cons_of_mem _ hx))

lemma succPath_reachN_pred (g : QGraph) (hwf : QGraph.WF g) :
    ∀ (q : List Nat) (n d : Nat), IsPathOver g.succOf q →
      q.head? = some n → q.getLast? = some d → n ∈ g.nodes →
      ReachN g.predOf d (q.length - 1) n := by
  intro q
  induction q with
  | nil => intro n d _ hh _ _; cases hh
  | cons a rest ih =>
      intro n d hp hh hl hn
      injection hh with hh
      subst hh
      cases hr : rest with
      | nil =>
          subst hr
          injection hl with hl
          subst hl
          exact ReachN.refl
      | cons w rest2 =>
          subst hr
          obtain ⟨hw, hrest⟩ := hp
          have hwn : w ∈ g.nodes := hwf.2.1 a hn w hw
          rw [List.getLast?_cons_cons] at hl
          have hrec := ih w d hrest rfl hl hwn
          have hstep : a ∈ g.predOf w := (hwf.2.2.2 a hn w hwn).mp hw
          have := ReachN.tail hrec hstep
          simpa using this

/-- C4: all dependencies.  With the sink present in the graph, the map
returned by `getEveryDependency` contains, for each candidate source whose
node is backward-reachable from the sink's node, a shortest path as an
ordered node sequence starting at the source's node and ending at the
sink's node; candidate sources whose nodes are not backward-reachable have
no entry in the map. -/
theorem getEveryDependency_spec (g : QGraph) (find : Nat → Option Nat)
    (sink : Nat) (sources : List Nat) (skip : Bool) (sN : Nat)
    (hwf : QGraph.WF g) (hfind : ∀ v n, find v = some n → n ∈ g.nodes)
    (hsink : find sink = some sN) :
    ∀ s ∈ sources, ∀ n, find s = some n →
      ((Reaches g.predOf sN n →
        ∃ p, lookupDep (Graph.getEveryDependency g find sink sources skip) n
            = some p ∧
          p.head? = some n ∧ p.getLast? = some sN ∧ IsPathOver g.succOf p ∧
          (∀ k, distIs g.predOf sN n k → p.length = k + 1) ∧
          (∀ q, IsPathOver g.succOf q → q.head? = some n →
            q.getLast? = some sN → p.length ≤ q.length)) ∧
      (¬ Reaches g.predOf sN n →
        lookupDep (Graph.getEveryDependency g find sink sources skip) n
          = none)) := by
  have hpredcl := hwf.2.2.1
  have hsN : sN ∈ g.nodes := hfind sink sN hsink
  have hinv := bfs_inv g g.predOf hpredcl sN hsN g.nodes.length
  have heq : Graph.getEveryDependency g find sink sources skip
      = sources.filterMap (fun s =>
          match find s with
          | none => none
          | some n =>
              match (bfsIter g.predOf ⟨[[sN]], [[sN]]⟩ g.nodes.length).visited.find?
                  (fun p => entryNode p == n) with
              | none => none
              | some p => some (n, p)) := by
    unfold Graph.getEveryDependency bfsFrom
    rw [hsink]
  intro s hs n hfs
  have hres_uniq : ∀ e ∈ Graph.getEveryDependency g find sink sources skip,
      ∀ p2, ((bfsIter g.predOf ⟨[[sN]], [[sN]]⟩ g.nodes.length).visited.find?
          (fun p => entryNode p == e.1)) = some p2 → e.2 = p2 := by
    intro e he p2 hf2
    rw [heq] at he
    rcases List.mem_filterMap.mp he with ⟨s2, _, hs2⟩
    cases hfs2 : find s2 with
    | none =>
        rw [hfs2] at hs2
        dsimp only at hs2
        cases hs2
    | some n2 =>
        rw [hfs2] at hs2
        dsimp only at hs2
        cases hf3 : ((bfsIter g.predOf ⟨[[sN]], [[sN]]⟩ g.nodes.length).visited.find?
            (fun p => entryNode p == n2)) with
        | none =>
            rw [hf3] at hs2
            dsimp only at hs2
            cases hs2
        | some p3 =>
            rw [hf3] at hs2
            dsimp only at hs2
            injection hs2 with hs2
            subst hs2
            show p3 = p2
            exact Option.some.inj (hf3.symm.trans hf2)
  constructor
  · intro hreach
    obtain ⟨j0, hj0⟩ := (reaches_iff_reachN g.predOf sN n).mp hreach
    obtain ⟨j, _, hdj⟩ := distIs_exists g.predOf sN n j0 hj0
    have hjb : j < g.nodes.length :=
      distIs_bound g g.predOf hpredcl sN hsN j n hdj
    obtain ⟨q, hq, hqe⟩ := hinv.2.2.2.2 n j (by omega) hdj
    have hfsome : ∃ p, ((bfsIter g.predOf ⟨[[sN]], [[sN]]⟩ g.nodes.length).visited.find?
        (fun p => entryNode p == n)) = some p := by
      cases hf : ((bfsIter g.predOf ⟨[[sN]], [[sN]]⟩ g.nodes.length).visited.find?
          (fun p => entryNode p == n)) with
      | none =>
          rw [List.find?_eq_none] at hf
          exact absurd (by simp [hqe]) (hf q hq)
      | some p => exact ⟨p, rfl⟩
    obtain ⟨p, hfp⟩ := hfsome
    have hpV := List.mem_of_find?_eq_some hfp
    have hpeq : entryNode p = n := by
      have := List.find?_some hfp
      simpa using this
    obtain ⟨hrp, hlast, hmemN, j2, hj2, hlen2, hdj2⟩ := hinv.2.2.2.1 p hpV
    rw [hpeq] at hdj2
    have hj2j : j2 = j := distIs_unique g.predOf sN n j2 j hdj2 hdj
    subst hj2j
    have hmem_res : (n, p) ∈ Graph.getEveryDependency g find sink sources skip := by
      rw [heq]
      refine List.mem_filterMap.mpr ⟨s, hs, ?_⟩
      rw [hfs]
      dsimp only
      rw [hfp]
    have hlook : lookupDep (Graph.getEveryDependency g find sink sources skip) n
        = some p := by
      refine lookupDep_eq n p _ hmem_res ?_
      intro e he hen
      refine hres_uniq e he p ?_
      rw [hen]
      exact hfp
    have hhead : p.head? = some n := by
      cases hp : p with
      | nil => rw [hp] at hlen2; cases hlen2
      | cons a rest =>
          rw [hp] at hpeq
          rw [show entryNode (a :: rest) = a from rfl] at hpeq
          rw [hpeq]
          rfl
    refine ⟨p, hlook, hhead, hlast, revPath_pred_to_succ g hwf p hrp hmemN,
      ?_, ?_⟩
    · intro k hk
      have := distIs_unique g.predOf sN n k j2 hk hdj2
      omega
    · intro q2 hq2 hq2h hq2l
      have hrq := succPath_reachN_pred g hwf q2 n sN hq2 hq2h hq2l
        (hfind s n hfs)
      obtain ⟨j3, hj3le, hdj3⟩ :=
        distIs_exists g.predOf sN n (q2.length - 1) hrq
      have hj3 : j3 = j2 := distIs_unique g.predOf sN n j3 j2 hdj3 hdj2
      have hq2pos : 1 ≤ q2.length := by
        cases q2 with
        | nil => cases hq2h
        | cons a rest => simp
      omega
  · intro hno
    rw [heq]
    refine lookupDep_none n _ ?_
    intro e he hen
    rcases List.mem_filterMap.mp he with ⟨s2, _, hs2⟩
    cases hfs2 : find s2 with
    | none =>
        rw [hfs2] at hs2
        dsimp only at hs2
        cases hs2
    | some n2 =>
        rw [hfs2] at hs2
        dsimp only at hs2
        cases hf3 : ((bfsIter g.predOf ⟨[[sN]], [[sN]]⟩ g.nodes.length).visited.find?
            (fun p => entryNode p == n2)) with
        | none =>
            rw [hf3] at hs2
            dsimp only at hs2
            cases hs2
        | some p3 =>
            rw [hf3] at hs2
            dsimp only at hs2
            injection hs2 with hs2
            subst hs2
            have hen2 : n2 = n := hen
            subst hen2
            have hp3V := List.mem_of_find?_eq_some hf3
            have hp3e : entryNode p3 = n2 := by
              have := List.find?_some hf3
              simpa using this
            obtain ⟨_, _, _, j4, _, _, hdj4⟩ := hinv.2.2.2.1 p3 hp3V
            rw [hp3e] at hdj4
            exact hno ((reaches_iff_reachN g.predOf sN n2).mpr ⟨j4, hdj4.1⟩)

lemma gW_unreach_4 : ¬ Reaches gW.predOf 0 4 := by
  intro hr
  have hinv : ∀ x, Reaches gW.predOf 0 x → x ∈ [0, 1, 2] := by
    intro x hx
    induction hx with
    | refl => decide
    | tail hab hbc ih =>
        rename_i b c
        rcases List.mem_cons.mp ih with h | h
        · rw [h] at hbc
          have : c = 2 := by simpa [gW] using hbc
          rw [this]; decide
        · rcases List.mem_cons.mp h with h | h
          · rw [h] at hbc
            have : c = 0 := by simpa [gW] using hbc
            rw [this]; decide
          · rcases List.mem_cons.mp h with h | h
            · rw [h] at hbc
              have : c = 1 := by simpa [gW] using hbc
              rw [this]; decide
            · cases h
  exact absurd (hinv 4 hr) (by decide)

theorem getEveryDependency_spec_witness :
    (∃ p, lookupDep (Graph.getEveryDependency gW findW 0 [1, 4] false) 1
        = some p ∧
      p.head? = some 1 ∧ p.getLast? = some 0 ∧ IsPathOver gW.succOf p ∧
      (∀ k, distIs gW.predOf 0 1 k → p.length = k + 1) ∧
      (∀ q, IsPathOver gW.succOf q → q.head? = some 1 →
        q.getLast? = some 0 → p.length ≤ q.length)) ∧
    lookupDep (Graph.getEveryDependency gW findW 0 [1, 4] false) 4 = none :=
  ⟨(getEveryDependency_spec gW findW 0 [1, 4] false 0 gW_wf findW_ok rfl
      1 (by decide) 1 rfl).1
      (by
        have h1 : (2 : Nat) ∈ gW.predOf 0 := by decide
        have h2 : (1 : Nat) ∈ gW.predOf 2 := by decide
        exact Relation.ReflTransGen.head h1
          (Relation.ReflTransGen.head h2 Relation.ReflTransGen.refl)),
   (getEveryDependency_spec gW findW 0 [1, 4] false 0 gW_wf findW_ok rfl
      4 (by decide) 4 rfl).2 gW_unreach_4⟩

/-- C8: termination on cyclic graphs.  All four traversal queries are total
functions of this development (the depth-first worker recurses on a
strictly shrinking unvisited set; the breadth-first worker runs a fixed
number of levels), and on every finite graph — cycles included, since no
acyclicity hypothesis appears — each expands a node at most once: the
visited list of the depth-first traversal behind `getDepValues` and
`generateSubGraph` has no duplicates, stays inside the node set and its
size is bounded by the node count, and likewise for the visited entries of
the breadth-first worker `bfsFrom` behind `getNearestDependency` and
`getEveryDependency`. -/
theorem traversals_visit_once (g : QGraph) (find : Nat → Option Nat)
    (sources : List Nat) (forward : Bool) (src dst sink : Nat) (sN : Nat)
    (hwf : QGraph.WF g) (hfind : ∀ v n, find v = some n → n ∈ g.nodes)
    (hsink : find sink = some sN) :
    ((Graph.getDepValues g find sources forward).Nodup ∧
      (∀ x ∈ Graph.getDepValues g find sources forward, x ∈ g.nodes) ∧
      (Graph.getDepValues g find sources forward).length ≤ g.nodes.length) ∧
    (Graph.generateSubGraph g find src dst).Nodup ∧
    (((bfsFrom g g.predOf sN).visited.map entryNode).Nodup ∧
      (∀ v ∈ (bfsFrom g g.predOf sN).visited.map entryNode, v ∈ g.nodes) ∧
      (bfsFrom g g.predOf sN).visited.length ≤ g.nodes.length) := by
  have hsN : sN ∈ g.nodes := hfind sink sN hsink
  have hinv := bfs_inv g g.predOf hwf.2.2.1 sN hsN g.nodes.length
  have hdep1 : (Graph.getDepValues g find sources forward).Nodup :=
    dfs_nodup g _ _ [] List.nodup_nil
  have hdep2 : ∀ x ∈ Graph.getDepValues g find sources forward, x ∈ g.nodes :=
    dfs_subset_nodes g _ _ [] (fun v hv => absurd hv (List.not_mem_nil v))
  refine ⟨⟨hdep1, hdep2, nodup_subset_length _ _ hdep1 hdep2⟩, ?_, ?_, ?_, ?_⟩
  · unfold Graph.generateSubGraph
    cases hfs : find src with
    | none => exact List.nodup_nil
    | some a =>
        cases hfd : find dst with
        | none => exact List.nodup_nil
        | some b =>
            exact List.Nodup.filter _ (dfs_nodup g _ _ [] List.nodup_nil)
  · exact hinv.2.2.1
  · intro v hv
    rcases List.mem_map.mp hv with ⟨p, hp, hpe⟩
    obtain ⟨_, _, hmemN, j, _, hlen, _⟩ := hinv.2.2.2.1 p hp
    cases hpc : p with
    | nil => rw [hpc] at hlen; cases hlen
    | cons a rest =>
        rw [hpc] at hpe hmemN
        rw [show entryNode (a :: rest) = a from rfl] at hpe
        rw [← hpe]
        exact hmemN a (List.mem_cons_self _ _)
  · have hlen : (bfsFrom g g.predOf sN).visited.length
        = ((bfsFrom g g.predOf sN).visited.map entryNode).length := by
      rw [List.length_map]
    rw [hlen]
    refine nodup_subset_length _ _ hinv.2.2.1 ?_
    intro v hv
    rcases List.mem_map.mp hv with ⟨p, hp, hpe⟩
    obtain ⟨_, _, hmemN, j, _, hlen2, _⟩ := hinv.2.2.2.1 p hp
    cases hpc : p with
    | nil => rw [hpc] at hlen2; cases hlen2
    | cons a rest =>
        rw [hpc] at hpe hmemN
        rw [show entryNode (a :: rest) = a from rfl] at hpe
        rw [← hpe]
        exact hmemN a (List.mem_cons_self _ _)

theorem traversals_visit_once_witness :
    ((Graph.getDepValues gW findW [0] true).Nodup ∧
      (∀ x ∈ Graph.getDepValues gW findW [0] true, x ∈ gW.nodes) ∧
      (Graph.getDepValues gW findW [0] true).length ≤ gW.nodes.length) ∧
    (Graph.generateSubGraph gW findW 0 2).Nodup ∧
    (((bfsFrom gW gW.predOf 0).visited.map entryNode).Nodup ∧
      (∀ v ∈ (bfsFrom gW gW.predOf 0).visited.map entryNode, v ∈ gW.nodes) ∧
      (bfsFrom gW gW.predOf 0).visited.length ≤ gW.nodes.length) :=
  traversals_visit_once gW findW [0] true 0 2 0 0 gW_wf findW_ok rfl

end DepGraph
